import Mathlib

/-!
# The prediction-file parser of `scripts/importPredictions.js`

A shallow embedding of `parseInputDict` and `parsePredictionsFile` and of the
JavaScript built-ins they call, and of the query construction of
`getPredictionsByCondition` in `models/MLModel.js`, followed by theorems about them.

Conventions of the embedding.

* A JavaScript string is a `List Char`.  The script only cuts strings at ASCII
  characters (braces, quotes, commas, colons, digits), so working with code
  points instead of UTF-16 code units does not change any result.
* A JavaScript number is a `JSNumber`: `NaN`, an infinity, or a finite binary64
  value, carried as the rational it equals.  A numeral is read as the binary64
  value nearest to it (`toDouble`: ties to the even significand, an infinity
  on overflow, zero on underflow).  The sign of zero is not represented.
* `String.prototype.toLowerCase` is a parameter `lower` of the functions that
  call it; `asciiLowerCase` is the instance used on concrete ASCII inputs.
* An exception that reaches the `catch` of `parsePredictionsFile` makes it
  return `null`, which is `none` here.
-/

namespace ImportPredictions

/-! ## Strings -/

/-- JavaScript strings. -/
abbrev Str := List Char

/-- WhiteSpace and LineTerminator code points of ECMAScript: the characters removed by
`String.prototype.trim`, matched by `\s`, and skipped by `parseFloat`, `parseInt`, `Number`. -/
def isWhiteSpace (c : Char) : Bool :=
  let n := c.toNat
  n == 9 || n == 10 || n == 11 || n == 12 || n == 13 || n == 32 || n == 0xA0 ||
  n == 0x1680 || (0x2000 ≤ n && n ≤ 0x200A) || n == 0x2028 || n == 0x2029 ||
  n == 0x202F || n == 0x205F || n == 0x3000 || n == 0xFEFF

/-- The class `\d`, also the decimal digits of numeric literals. -/
def isDigit (c : Char) : Bool := 48 ≤ c.toNat && c.toNat ≤ 57

/-- Quote characters `'` and `"`. -/
def isQuote (c : Char) : Bool := c == '\'' || c == '"'

/-- Models `s.trim()`. -/
def trim (s : Str) : Str :=
  ((s.dropWhile isWhiteSpace).reverse.dropWhile isWhiteSpace).reverse

/-- Models `s.startsWith(p)`. -/
def startsWith (s p : Str) : Bool := p.isPrefixOf s

/-- Models `s.endsWith(p)`. -/
def endsWith (s p : Str) : Bool := p.reverse.isPrefixOf s.reverse

/-- Models `s.slice(1, -1)`. -/
def slice1m1 (s : Str) : Str := (s.drop 1).dropLast

/-- Models `s.slice(0, -1)`. -/
def slice0m1 (s : Str) : Str := s.dropLast

/-- Models `s.split(c)` for a one-character separator. -/
def split (c : Char) : Str → List Str
  | [] => [[]]
  | x :: xs =>
    if x = c then [] :: split c xs
    else
      match split c xs with
      | [] => [[x]]
      | p :: ps => (x :: p) :: ps

/-- Models `s.indexOf(c)` for a one-character needle; `none` is `-1`. -/
def indexOf (c : Char) : Str → Option Nat
  | [] => none
  | x :: xs => if x = c then some 0 else (indexOf c xs).map (· + 1)

/-- Models `s.lastIndexOf(p)`; `none` is `-1`. -/
def lastIndexOf (p : Str) : Str → Option Nat
  | [] => if p.isPrefixOf [] then some 0 else none
  | x :: xs =>
    match lastIndexOf p xs with
    | some i => some (i + 1)
    | none => if p.isPrefixOf (x :: xs) then some 0 else none

/-- Models `s.includes(p)`. -/
def includes (s p : Str) : Bool :=
  match s with
  | [] => p.isPrefixOf []
  | x :: xs => p.isPrefixOf (x :: xs) || includes xs p

/-- ASCII instance of `toLowerCase`. -/
def asciiLowerCase (s : Str) : Str := s.map Char.toLower

/-! ## Numbers -/

/-- JavaScript numbers: `NaN`, the two infinities, and finite values. -/
inductive JSNumber where
  | nan : JSNumber
  | inf (neg : Bool) : JSNumber
  | fin (q : ℚ) : JSNumber
deriving DecidableEq

/-- Models `isNaN(x)` for a number `x`. -/
def JSNumber.isNaN : JSNumber → Bool
  | .nan => true
  | _ => false

/-- Models `Number.isFinite(x)`. -/
def JSNumber.isFinite : JSNumber → Bool
  | .fin _ => true
  | _ => false

/-- Models `Number.isInteger(x)`. -/
def JSNumber.isInteger : JSNumber → Bool
  | .fin q => q.den == 1
  | _ => false

/-- Value of a decimal digit character. -/
def digitVal (c : Char) : Nat := c.toNat - 48

/-- Value of a string of decimal digits. -/
def natOfDigits (ds : Str) : Nat := ds.foldl (fun n c => 10 * n + digitVal c) 0

/-- The rational `m * 10 ^ e`. -/
def decimal (m : Nat) (e : Int) : ℚ :=
  if 0 ≤ e then ((m * 10 ^ e.toNat : Nat) : ℚ) else mkRat m (10 ^ (-e).toNat)

/-- Apply a sign. -/
def signed (neg : Bool) (q : ℚ) : ℚ := if neg then -q else q

/-- The integer nearest to `a / b`, the even one of the two at a tie. -/
def roundHalfEven (a b : Nat) : Nat :=
  let q := a / b
  let r := a % b
  if 2 * r < b then q
  else if b < 2 * r then q + 1
  else if q % 2 = 0 then q else q + 1

/-- Position of the leading binary digit of `n`: the `e` with `2 ^ e ≤ n < 2 ^ (e + 1)`, for
`n > 0` (first argument: fuel). -/
def log2Aux : Nat → Nat → Nat
  | 0, _ => 0
  | fuel + 1, n => if n < 2 then 0 else log2Aux fuel (n / 2) + 1

/-- The exponent `e` with `2 ^ e ≤ p / d < 2 ^ (e + 1)`, for `p > 0`. -/
def binaryExponent (p d : Nat) : Int :=
  if d ≤ p then (log2Aux (p / d) (p / d) : Int)
  else -((log2Aux ((d - 1) / p) ((d - 1) / p) : Int) + 1)

/-- The binary64 value nearest to `p / d`, ties to the even significand; `none` when the value
overflows to an infinity.  The binary64 values around `p / d` are the multiples of `2 ^ ex`,
with 53 significant bits for a normal value and exponent `-1074` for a subnormal one. -/
def toDoubleAbs (p d : Nat) : Option ℚ :=
  if p = 0 then some 0
  else
    let ex : Int := max (binaryExponent p d) (-1022) - 52
    if 0 ≤ ex then
      let v := roundHalfEven p (d * 2 ^ ex.toNat) * 2 ^ ex.toNat
      if 2 ^ 1024 ≤ v then none else some ((v : Nat) : ℚ)
    else some (mkRat (roundHalfEven (p * 2 ^ (-ex).toNat) d) (2 ^ (-ex).toNat))

/-- The Number value of a rational: the nearest binary64 value, an infinity on overflow. -/
def toDouble (q : ℚ) : JSNumber :=
  match toDoubleAbs q.num.natAbs q.den with
  | none => .inf (decide (q.num < 0))
  | some r => .fin (signed (decide (q.num < 0)) r)

/-- Read an optional `+` or `-`. -/
def readSign : Str → Bool × Str
  | '-' :: r => (true, r)
  | '+' :: r => (false, r)
  | s => (false, s)

/-- Split off the leading digits, then an optional `.` with its digits: the integer digits, the
fraction digits and the rest. -/
def readDecimalDigits (u : Str) : Str × Str × Str :=
  let ip := u.takeWhile isDigit
  match u.dropWhile isDigit with
  | '.' :: r => (ip, r.takeWhile isDigit, r.dropWhile isDigit)
  | r1 => (ip, [], r1)

/-- Exponent read by `parseFloat` after the digits: an `e` or `E`, an optional sign and digits;
`0` when that part is absent or incomplete. -/
def readExponent : Str → Int
  | c :: r =>
    if c = 'e' ∨ c = 'E' then
      let sd := readSign r
      let ds := sd.2.takeWhile isDigit
      if ds = [] then 0 else if sd.1 then -(natOfDigits ds : Int) else (natOfDigits ds : Int)
    else 0
  | [] => 0

/-- Models `parseFloat(s)` for a string `s`: leading white space is skipped, the longest
prefix that is a StrDecimalLiteral is read, and the result is its Number value. -/
def parseFloat (s : Str) : JSNumber :=
  let su := readSign (s.dropWhile isWhiteSpace)
  if startsWith su.2 "Infinity".toList then .inf su.1
  else
    let d := readDecimalDigits su.2
    if d.1 = [] ∧ d.2.1 = [] then .nan
    else toDouble (signed su.1 (decimal (natOfDigits (d.1 ++ d.2.1))
                (readExponent d.2.2 - (d.2.1.length : Int))))

/-- Whether the whole of `t` is a StrDecimalLiteral. -/
def isStrDecimalLiteral (t : Str) : Bool :=
  let u := (readSign t).2
  if u = "Infinity".toList then true
  else
    let d := readDecimalDigits u
    if d.1 = [] ∧ d.2.1 = [] then false
    else
      match d.2.2 with
      | [] => true
      | c :: r =>
        (c == 'e' || c == 'E') &&
          (let ds := (readSign r).2
           !ds.isEmpty && ds.all isDigit)

/-- Hexadecimal digits. -/
def isHexDigit (c : Char) : Bool :=
  isDigit c || (97 ≤ c.toNat && c.toNat ≤ 102) || (65 ≤ c.toNat && c.toNat ≤ 70)

/-- Whether the whole of `t` is a NonDecimalIntegerLiteral (`0x..`, `0o..`, `0b..`). -/
def isNonDecimalIntegerLiteral : Str → Bool
  | '0' :: x :: ds =>
    !ds.isEmpty &&
      (((x == 'x' || x == 'X') && ds.all isHexDigit) ||
       ((x == 'o' || x == 'O') && ds.all (fun c => 48 ≤ c.toNat && c.toNat ≤ 55)) ||
       ((x == 'b' || x == 'B') && ds.all (fun c => c == '0' || c == '1')))
  | _ => false

/-- Models `isNaN(s)` for a string `s`, that is, whether `Number(s)` is `NaN`. -/
def isNaNString (s : Str) : Bool :=
  let t := trim s
  !(t.isEmpty || isStrDecimalLiteral t || isNonDecimalIntegerLiteral t)

/-- Value of a hexadecimal digit character. -/
def hexVal (c : Char) : Nat :=
  if isDigit c then c.toNat - 48
  else if 97 ≤ c.toNat then c.toNat - 87
  else c.toNat - 55

/-- Models `parseInt(s)` for a string `s`, no radix given: the Number value of the integer
read. -/
def parseIntString (s : Str) : JSNumber :=
  let su := readSign (s.dropWhile isWhiteSpace)
  let dec : JSNumber :=
    let ds := su.2.takeWhile isDigit
    if ds = [] then .nan else toDouble (signed su.1 (natOfDigits ds))
  match su.2 with
  | '0' :: x :: r =>
    if x = 'x' ∨ x = 'X' then
      let ds := r.takeWhile isHexDigit
      if ds = [] then .nan
      else toDouble (signed su.1 ((ds.foldl (fun n c => 16 * n + hexVal c) 0 : Nat) : ℚ))
    else dec
  | _ => dec

/-- Leading decimal digit of a natural number (first argument: fuel). -/
def leadingDigit : Nat → Nat → Nat
  | 0, n => n
  | fuel + 1, n => if n < 10 then n else leadingDigit fuel (n / 10)

/-- Number of decimal digits of a natural number, `0` for `0` (first argument: fuel). -/
def numDigitsAux : Nat → Nat → Nat
  | 0, _ => 0
  | fuel + 1, n => if n = 0 then 0 else numDigitsAux fuel (n / 10) + 1

/-- Number of zeros between the point and the first non-zero digit of `p / d`, for
`0 < p < d` (first argument: fuel). -/
def leadingZerosAux : Nat → Nat → Nat → Nat
  | 0, _, _ => 0
  | fuel + 1, p, d => if d ≤ 10 * p then 0 else leadingZerosAux fuel (10 * p) d + 1

/-- The `n` with `10 ^ (n - 1) ≤ p / d < 10 ^ n`, for `p > 0`. -/
def decimalExponent (p d : Nat) : Int :=
  if d ≤ p then (numDigitsAux (p / d) (p / d) : Int) else -(leadingZerosAux d p d : Int)

/-- Search of the shortest decimal `s * 10 ^ t` whose Number value is `x`, from `k` digits on
(first argument: fuel).  With `k` digits the candidates are the two neighbours of `x`; when
both fit, the nearer one is taken, the even one at a tie. -/
def shortestAux (x : ℚ) (n : Int) : Nat → Nat → Nat × Int
  | 0, k => (x.num.natAbs * 10 ^ (k - n).toNat / (x.den * 10 ^ (n - k).toNat), n - k)
  | fuel + 1, k =>
    let t : Int := n - k
    let num := x.num.natAbs * 10 ^ (-t).toNat
    let den := x.den * 10 ^ t.toNat
    let a := num / den
    let okLo := decide (toDouble (decimal a t) = .fin x)
    let okHi := decide (toDouble (decimal (a + 1) t) = .fin x)
    if okLo && okHi then (roundHalfEven num den, t)
    else if okLo then (a, t)
    else if okHi then (a + 1, t)
    else shortestAux x n fuel (k + 1)

/-- The digits `s` and the exponent `t` of the decimal `s * 10 ^ t` that Number-to-string
conversion prints for a positive binary64 value `x`: the decimal with the fewest digits whose
Number value is `x` (17 digits always suffice). -/
def shortestDecimal (x : ℚ) : Nat × Int :=
  shortestAux x (decimalExponent x.num.natAbs x.den) 17 1

/-- Models `parseInt(x)` for a number `x`: `x` is converted to a string first.  An integer
below `1e21` is printed in full and read back unchanged.  Otherwise the shortest decimal
`s * 10 ^ t` of `x` is printed, with `n` digits before the point: in positional notation when
`-6 < n ≤ 21`, of which `parseInt` reads the integer part, and else in exponent notation
`d.ddde±n`, of which `parseInt` reads the leading digit only. -/
def parseIntNumber : JSNumber → JSNumber
  | .nan => .nan
  | .inf _ => .nan
  | .fin q =>
    let neg := decide (q.num < 0)
    if q.den = 1 ∧ q.num.natAbs < 10 ^ 21 then .fin q
    else
      let sd := shortestDecimal (signed neg q)
      let n : Int := (numDigitsAux sd.1 sd.1 : Int) + sd.2
      if 21 < n ∨ n ≤ -6 then .fin (signed neg (leadingDigit sd.1 sd.1))
      else if n ≤ 0 then .fin 0
      else
        match toDouble ((sd.1 * 10 ^ sd.2.toNat / 10 ^ (-sd.2).toNat : Nat) : ℚ) with
        | .fin r => .fin (signed neg r)
        | other => other

/-! ## Values and objects -/

/-- The values stored in the object built by `parseInputDict`: strings and numbers. -/
inductive JSValue where
  | str (s : Str) : JSValue
  | num (n : JSNumber) : JSValue
deriving DecidableEq

/-- The object built by `parseInputDict`: its own properties, most recent write first. -/
abbrev JSObject := List (Str × JSValue)

/-- Property read `obj[key]` for one of the keys the script reads; `none` is `undefined`. -/
def JSObject.get (obj : JSObject) (key : Str) : Option JSValue :=
  match obj with
  | [] => none
  | (k, v) :: rest => if k = key then some v else JSObject.get rest key

/-- Property write `obj[key] = value` for a string or number `value`.  The key `__proto__` is
the inherited accessor of `Object.prototype`, whose setter ignores values that are not objects,
so that write creates no property. -/
def JSObject.set (obj : JSObject) (key : Str) (value : JSValue) : JSObject :=
  if key = "__proto__".toList then obj else (key, value) :: obj

/-- Truthiness of the result of a property read. -/
def truthy : Option JSValue → Bool
  | none => false
  | some (.str s) => !s.isEmpty
  | some (.num .nan) => false
  | some (.num (.inf _)) => true
  | some (.num (.fin q)) => q != 0

/-- Models `parseInt(v)`. -/
def parseIntValue : JSValue → JSNumber
  | .str s => parseIntString s
  | .num n => parseIntNumber n

/-- Models `parseFloat(v)`: a number is converted to a string and read back, which returns it. -/
def parseFloatValue : JSValue → JSNumber
  | .str s => parseFloat s
  | .num n => n

/-- Models `v.toLowerCase()`: numbers have no such method, the call throws a TypeError (`none`). -/
def toLowerCaseValue (lower : Str → Str) : JSValue → Option Str
  | .str s => some (lower s)
  | .num _ => none

/-! ## `parseInputDict` -/

/-- Models `key.replace(/^['"]|['"]$/g, '')`: one quote removed at the start, one at the end. -/
def stripKeyQuotes (key : Str) : Str :=
  let k1 : Str :=
    match key with
    | c :: r => if isQuote c then r else c :: r
    | [] => []
  match k1.getLast? with
  | some c => if isQuote c then k1.dropLast else k1
  | none => k1

/-- The value stored for a raw value (lines 38-43): a quoted value loses its quotes, a value
that `Number` accepts is read by `parseFloat`, anything else stays as it is. -/
def coerceValue (value : Str) : JSValue :=
  if (startsWith value ['"'] && endsWith value ['"']) ||
     (startsWith value ['\''] && endsWith value ['\'']) then
    .str (slice1m1 value)
  else if !isNaNString value && !value.isEmpty then
    .num (parseFloat value)
  else
    .str value

/-- One turn of the loop over the pairs (lines 28-45). -/
def parsePair (obj : JSObject) (pair : Str) : JSObject :=
  match indexOf ':' pair with
  | none => obj
  | some colonIndex =>
    let key := stripKeyQuotes (trim (pair.take colonIndex))
    let value := coerceValue (trim (pair.drop (colonIndex + 1)))
    obj.set key value

/-- Models `parseInputDict(dictString)`.  No operation in its `try` block throws on a string
argument, so the object is always returned. -/
def parseInputDict (dictString : Str) : JSObject :=
  let cleaned := trim dictString
  let cleaned :=
    if startsWith cleaned ['{'] && endsWith cleaned ['}'] then slice1m1 cleaned else cleaned
  let pairs := (split ',' cleaned).map trim
  pairs.foldl parsePair []

/-! ## `parsePredictionsFile` -/

/-- The records pushed onto `predictions`. -/
structure PredictionRecord where
  age : JSNumber
  sex : Str
  bmi : JSNumber
  children : JSNumber
  smoker : Str
  region : Str
  predicted_charge : JSNumber
deriving DecidableEq

/-- Whether the whole of `s` matches `\d+\.?\d*\s*`; the result is group 1.  Digits, the
point and white space are disjoint classes, so the greedy reading is the only one. -/
def matchNumberHere (s : Str) : Option Str :=
  let ip := s.takeWhile isDigit
  if ip = [] then none
  else
    match s.dropWhile isDigit with
    | '.' :: r =>
      if (r.dropWhile isDigit).all isWhiteSpace then some (ip ++ '.' :: r.takeWhile isDigit)
      else none
    | r1 => if r1.all isWhiteSpace then some ip else none

/-- Models `line.match(/(\d+\.?\d*)\s*$/)`: the leftmost position from which the rest of the
line matches.  The result is `(numberMatch[0], numberMatch[1])`; `none` is `null`. -/
def matchNumber : Str → Option (Str × Str)
  | [] => none
  | c :: cs =>
    match matchNumberHere (c :: cs) with
    | some g => some (c :: cs, g)
    | none => matchNumber cs

/-- Lines 83-108: the key-value text and the predicted charge of a trimmed line; `none` when
the line has neither a trailing number nor a comma. -/
def splitCharge (line : Str) : Option (Str × JSNumber) :=
  match matchNumber line with
  | some (m0, m1) =>
    let predictedCharge := parseFloat m1
    let dictEndIndex := (lastIndexOf m0 line).getD 0
    let inputDictString := trim (line.take dictEndIndex)
    let inputDictString :=
      if endsWith inputDictString [','] then trim (slice0m1 inputDictString)
      else inputDictString
    some (inputDictString, predictedCharge)
  | none =>
    match lastIndexOf [','] line with
    | none => none
    | some lastCommaIndex =>
      some (trim (line.take lastCommaIndex), parseFloat (trim (line.drop (lastCommaIndex + 1))))

/-- What one turn of the loop over the lines does. -/
inductive LineOutcome where
  /-- The line is empty or a comment (line 76). -/
  | skipped : LineOutcome
  /-- Warning "No predicted charge found" (line 103). -/
  | noCharge : LineOutcome
  /-- Warning "Invalid predicted charge" (line 111). -/
  | invalidCharge : LineOutcome
  /-- Warning "Invalid input format" (line 128). -/
  | invalidInput : LineOutcome
  /-- A record is pushed (line 118). -/
  | pushed (r : PredictionRecord) : LineOutcome
  /-- A TypeError is thrown while the record is built. -/
  | thrown : LineOutcome
deriving DecidableEq

/-- The expression `v ? v.toLowerCase() : dflt` of lines 123-124; `none` is a TypeError. -/
def lowerOrDefault (lower : Str → Str) (v : Option JSValue) (dflt : Str) : Option Str :=
  match v with
  | some x => if truthy (some x) then toLowerCaseValue lower x else some dflt
  | none => some dflt

/-- The expression `inputDict.children || 0` of line 122. -/
def childrenOrZero (v : Option JSValue) : JSValue :=
  match v with
  | some x => if truthy (some x) then x else .num (.fin 0)
  | none => .num (.fin 0)

/-- Lines 117-129: the test on `age`, `sex`, `bmi` and the construction of the record. -/
def assemble (lower : Str → Str) (inputDict : JSObject) (predictedCharge : JSNumber) :
    LineOutcome :=
  match inputDict.get "age".toList, inputDict.get "sex".toList, inputDict.get "bmi".toList with
  | some age, some sex, some bmi =>
    if truthy (some age) && truthy (some sex) then
      match toLowerCaseValue lower sex,
            lowerOrDefault lower (inputDict.get "smoker".toList) "no".toList,
            lowerOrDefault lower (inputDict.get "region".toList) "southeast".toList with
      | some sexLower, some smoker, some region =>
        .pushed
          { age := parseIntValue age
            sex := sexLower
            bmi := parseFloatValue bmi
            children := parseIntValue (childrenOrZero (inputDict.get "children".toList))
            smoker := smoker
            region := region
            predicted_charge := predictedCharge }
      | _, _, _ => .thrown
    else .invalidInput
  | _, _, _ => .invalidInput

/-- The body of the loop over the lines (lines 75-129) for the line `lines[i]`. -/
def processLine (lower : Str → Str) (rawLine : Str) : LineOutcome :=
  let line := trim rawLine
  if line.isEmpty || startsWith line ['#'] then .skipped
  else
    match splitCharge line with
    | none => .noCharge
    | some (inputDictString, predictedCharge) =>
      if predictedCharge.isNaN then .invalidCharge
      else assemble lower (parseInputDict inputDictString) predictedCharge

/-- The loop over the lines from `startIndex` on: `predictions` grows by the pushed records;
a thrown error leaves the loop for the `catch`, which returns `null` (`none`). -/
def processLines (lower : Str → Str) :
    List Str → List PredictionRecord → Option (List PredictionRecord)
  | [], predictions => some predictions
  | l :: ls, predictions =>
    match processLine lower l with
    | .thrown => none
    | .pushed r => processLines lower ls (predictions ++ [r])
    | _ => processLines lower ls predictions

/-- Line 64: `fileContent.split('\n').filter(line => line.trim())`. -/
def nonBlankLines (fileContent : Str) : List Str :=
  (split '\n' fileContent).filter (fun line => !(trim line).isEmpty)

/-- Whether a line is taken for the header (line 68). -/
def isHeader (line : Str) : Bool :=
  includes line "Input Values".toList || includes line "Predicted Charge".toList

/-- Models `parsePredictionsFile(filePath)`.  The file system is the argument `file`: `none`
when the path does not exist or cannot be read, else the decoded content.  The result `none` is
`null`.
With no non-blank line `lines[0]` is `undefined` and `lines[0].includes` throws. -/
def parsePredictionsFile (lower : Str → Str) (file : Option Str) :
    Option (List PredictionRecord) :=
  match file with
  | none => none
  | some fileContent =>
    let lines := nonBlankLines fileContent
    match lines with
    | [] => none
    | first :: _ =>
      let startIndex := if isHeader first then 1 else 0
      processLines lower (lines.drop startIndex) []

/-! ## Vocabulary of the statements -/

/-- Every character of `s` is a decimal digit. -/
def AllDigits (s : Str) : Prop := ∀ c ∈ s, isDigit c = true

instance (s : Str) : Decidable (AllDigits s) := by
  unfold AllDigits; infer_instance

/-- An unsigned decimal numeral: the integer digits `ip`, then optionally a point and the
fraction digits. -/
def numeral (ip : Str) (fp : Option Str) : Str :=
  match fp with
  | none => ip
  | some f => ip ++ '.' :: f

/-- The numeral `numeral ip fp` is well formed: at least one integer digit, digits only. -/
def IsNumeral (ip : Str) (fp : Option Str) : Prop :=
  ip ≠ [] ∧ AllDigits ip ∧ ∀ f ∈ fp, AllDigits f

instance (ip : Str) (fp : Option Str) : Decidable (IsNumeral ip fp) := by
  unfold IsNumeral; infer_instance

/-- The mathematical value of a numeral: integer part plus fraction.  Its Number value is
`toDouble` of it. -/
def numeralValue (ip : Str) (fp : Option Str) : ℚ :=
  match fp with
  | none => (natOfDigits ip : ℚ)
  | some f => (natOfDigits ip : ℚ) + (natOfDigits f : ℚ) / 10 ^ f.length

/-- A line in the format `{'age': A, 'sex': 'S', 'bmi': B},P`. -/
def dictLine (A S B P : Str) : Str :=
  "\x7b'age': ".toList ++ A ++ ", 'sex': '".toList ++ S ++ "', 'bmi': ".toList ++ B ++
    "\x7d,".toList ++ P

/-- The lines the loop visits: the non-blank lines, without the first one when it is taken
for the header. -/
def dataLines (fileContent : Str) : List Str :=
  match nonBlankLines fileContent with
  | [] => []
  | first :: rest => if isHeader first then rest else first :: rest

/-- The non-trivial lines: non-blank, not the header, not a comment. -/
def nonTrivialLines (fileContent : Str) : List Str :=
  (dataLines fileContent).filter (fun l => !startsWith (trim l) ['#'])

/-- The record a loop turn pushes, if any. -/
def LineOutcome.record? : LineOutcome → Option PredictionRecord
  | .pushed r => some r
  | _ => none


/-- A file made of the given lines, separated by `\n`. -/
def joinLines : List Str → Str
  | [] => []
  | [l] => l
  | l :: l' :: ls => l ++ '\n' :: joinLines (l' :: ls)

/-- The key and the stored value of a pair, `none` for a pair without a colon (lines 28-43). -/
def pairKeyValue (pair : Str) : Option (Str × JSValue) :=
  match indexOf ':' pair with
  | none => none
  | some colonIndex =>
    some (stripKeyQuotes (trim (pair.take colonIndex)),
      coerceValue (trim (pair.drop (colonIndex + 1))))

/-- The pairs that `parseInputDict` cuts out of its argument (lines 15-25). -/
def pairsOf (dictString : Str) : List Str :=
  let cleaned := trim dictString
  let cleaned :=
    if startsWith cleaned ['{'] && endsWith cleaned ['}'] then slice1m1 cleaned else cleaned
  (split ',' cleaned).map trim

/-- The stored value of the last pair, from left to right, whose key is `key`; `none` when no
pair has that key. -/
def lastWrite (key : Str) : List Str → Option JSValue
  | [] => none
  | pair :: rest =>
    match lastWrite key rest with
    | some v => some v
    | none =>
      match pairKeyValue pair with
      | some (k, v) => if k = key then some v else none
      | none => none

/-- An optional sign in front of a numeral: nothing, `+` (`some false`) or `-` (`some true`). -/
def signText : Option Bool → Str
  | none => []
  | some false => ['+']
  | some true => ['-']

/-- Whether an optional sign is `-`. -/
def signNeg : Option Bool → Bool
  | some true => true
  | _ => false

/-- The numeral `numeral ip fp` in the form that `Number()` reads: digits only, and at least one
digit before or after the point. -/
def IsDecimalLiteral (ip : Str) (fp : Option Str) : Prop :=
  AllDigits ip ∧ (∀ f ∈ fp, AllDigits f) ∧ (ip ≠ [] ∨ fp.getD [] ≠ [])

instance (ip : Str) (fp : Option Str) : Decidable (IsDecimalLiteral ip fp) := by
  unfold IsDecimalLiteral; infer_instance

/-- An optional exponent part of a numeric literal: nothing, or `e` or `E`, an optional sign and
at least one digit. -/
def IsExponentPart (e : Str) : Prop :=
  e = [] ∨ ∃ (c : Char) (sg : Option Bool) (ds : Str),
    (c = 'e' ∨ c = 'E') ∧ ds ≠ [] ∧ AllDigits ds ∧ e = c :: (signText sg ++ ds)

/-- The texts that `Number()` reads as a number (the StrNumericLiteral of the language
definition): an optionally signed `Infinity`; an optionally signed decimal literal with an
optional exponent part; or an unsigned integer literal with the prefix `0x`, `0o` or `0b`. -/
def IsNumericLiteral (t : Str) : Prop :=
  (∃ sg : Option Bool, t = signText sg ++ "Infinity".toList) ∨
  (∃ (sg : Option Bool) (ip : Str) (fp : Option Str) (e : Str),
    IsDecimalLiteral ip fp ∧ IsExponentPart e ∧ t = signText sg ++ (numeral ip fp ++ e)) ∨
  (∃ (x : Char) (ds : Str), t = '0' :: x :: ds ∧ ds ≠ [] ∧
    (((x = 'x' ∨ x = 'X') ∧ ∀ c ∈ ds, isHexDigit c = true) ∨
     ((x = 'o' ∨ x = 'O') ∧ ∀ c ∈ ds, 48 ≤ c.toNat ∧ c.toNat ≤ 55) ∨
     ((x = 'b' ∨ x = 'B') ∧ ∀ c ∈ ds, c = '0' ∨ c = '1')))

/-- The key-value text taken from what stands before the numeric tail: trimmed, then one
trailing comma dropped and trimmed again. -/
def segmentBefore (pre : Str) : Str :=
  let s := trim pre
  if endsWith s [','] then trim (slice0m1 s) else s

/-- Whether a string consists solely of digits and at most one decimal point. -/
def digitsAndPoint (s : Str) : Bool :=
  s.all (fun c => isDigit c || c == '.') && decide (s.count '.' ≤ 1)

/-! ## `getPredictionsByCondition` of `models/MLModel.js` -/

/-- The five fields that `getPredictionsByCondition` reads of its argument, for a type `α` of
JavaScript values; an absent field is the value `undefined`. -/
structure Condition (α : Type) where
  region : α
  smoker : α
  age : α
  min_age : α
  max_age : α

/-- Models `conditions.join(' AND ')`. -/
def joinAnd : List Str → Str
  | [] => []
  | [c] => c
  | c :: c' :: cs => c ++ " AND ".toList ++ joinAnd (c' :: cs)

/-- One block `if (condition.f) { conditions.push(text); params.push(condition.f); }`, on the
pair `(conditions, params)`. -/
def pushCondition {α : Type} (isTruthy : α → Bool) (value : α) (text : Str)
    (acc : List Str × List α) : List Str × List α :=
  if isTruthy value then (acc.1 ++ [text], acc.2 ++ [value]) else acc

/-- Models `getPredictionsByCondition(condition)` up to the call of `executeQuery`: the result
is the pair `(sql, params)` passed to it.  `isTruthy` is the truthiness of JavaScript
values. -/
def getPredictionsByCondition {α : Type} (isTruthy : α → Bool) (condition : Condition α) :
    Str × List α :=
  let acc : List Str × List α := ([], [])
  let acc := pushCondition isTruthy condition.region "region = ?".toList acc
  let acc := pushCondition isTruthy condition.smoker "smoker = ?".toList acc
  let acc := pushCondition isTruthy condition.age "age = ?".toList acc
  let acc := pushCondition isTruthy condition.min_age "age >= ?".toList acc
  let acc := pushCondition isTruthy condition.max_age "age <= ?".toList acc
  let sql := "SELECT * FROM ml_predictions".toList
  let sql := if acc.1.length > 0 then sql ++ " WHERE ".toList ++ joinAnd acc.1 else sql
  (sql ++ " ORDER BY id ASC".toList, acc.2)

/-! ## Lemmas on the string primitives -/

theorem isWhiteSpace_eq_false_of_isDigit {c : Char} (h : isDigit c = true) :
    isWhiteSpace c = false := by
  simp only [isDigit, Bool.and_eq_true, decide_eq_true_eq] at h
  simp only [isWhiteSpace, Bool.or_eq_false_iff, Bool.and_eq_false_iff, beq_eq_false_iff_ne,
    decide_eq_false_iff_not]
  omega

theorem dropWhile_eq_self_of_head {p : Char → Bool} {s : Str}
    (h : ∀ c ∈ s.head?, p c = false) : s.dropWhile p = s := by
  cases s with
  | nil => rfl
  | cons a t =>
    have ha : p a = false := h a (by simp)
    simp [List.dropWhile, ha]

theorem trim_eq_self {s : Str} (h1 : ∀ c ∈ s.head?, isWhiteSpace c = false)
    (h2 : ∀ c ∈ s.getLast?, isWhiteSpace c = false) : trim s = s := by
  unfold trim
  rw [dropWhile_eq_self_of_head h1, dropWhile_eq_self_of_head, List.reverse_reverse]
  intro c hc
  rw [List.head?_reverse] at hc
  exact h2 c hc

theorem trim_cons_of_isWhiteSpace {c : Char} {s : Str} (h : isWhiteSpace c = true) :
    trim (c :: s) = trim s := by
  simp [trim, List.dropWhile, h]

theorem split_of_not_mem {c : Char} {a : Str} (h : c ∉ a) : split c a = [a] := by
  induction a with
  | nil => rfl
  | cons x xs ih =>
    have hx : x ≠ c := fun e => h (by simp [e])
    have hxs : c ∉ xs := fun e => h (by simp [e])
    simp [split, hx, ih hxs]

theorem split_ne_nil (c : Char) (s : Str) : split c s ≠ [] := by
  induction s with
  | nil => simp [split]
  | cons x xs ih =>
    unfold split
    split_ifs
    · simp
    · split <;> simp

theorem split_append_sep {c : Char} {a : Str} (b : Str) (h : c ∉ a) :
    split c (a ++ c :: b) = a :: split c b := by
  induction a with
  | nil => simp [split]
  | cons x xs ih =>
    have hx : x ≠ c := fun e => h (by simp [e])
    have hxs : c ∉ xs := fun e => h (by simp [e])
    simp [split, hx, ih hxs]

theorem indexOf_append_of_not_mem {c : Char} {a : Str} (b : Str) (h : c ∉ a) :
    indexOf c (a ++ c :: b) = some a.length := by
  induction a with
  | nil => simp [indexOf]
  | cons x xs ih =>
    have hx : x ≠ c := fun e => h (by simp [e])
    have hxs : c ∉ xs := fun e => h (by simp [e])
    simp [indexOf, hx, ih hxs]

theorem indexOf_eq_none_of_not_mem {c : Char} {a : Str} (h : c ∉ a) : indexOf c a = none := by
  induction a with
  | nil => rfl
  | cons x xs ih =>
    have hx : x ≠ c := fun e => h (by simp [e])
    have hxs : c ∉ xs := fun e => h (by simp [e])
    simp [indexOf, hx, ih hxs]

theorem lastIndexOf_eq_none_of_length_lt {p s : Str} (h : s.length < p.length) :
    lastIndexOf p s = none := by
  induction s with
  | nil =>
    cases p with
    | nil => simp at h
    | cons a t => simp [lastIndexOf]
  | cons x xs ih =>
    have h1 : xs.length < p.length := by simp at h; omega
    have h2 : p.isPrefixOf (x :: xs) = false := by
      rw [Bool.eq_false_iff]
      intro hp
      have := (List.isPrefixOf_iff_prefix.mp hp).length_le
      omega
    simp [lastIndexOf, ih h1, h2]

theorem lastIndexOf_append_self (a : Str) {p : Str} (hp : p ≠ []) :
    lastIndexOf p (a ++ p) = some a.length := by
  induction a with
  | nil =>
    cases p with
    | nil => exact absurd rfl hp
    | cons x xs =>
      have h1 : lastIndexOf (x :: xs) xs = none :=
        lastIndexOf_eq_none_of_length_lt (by simp)
      have h2 : (x :: xs).isPrefixOf (x :: xs) = true :=
        List.isPrefixOf_iff_prefix.mpr (List.prefix_refl _)
      simp only [List.nil_append, lastIndexOf, h1, h2, if_true, List.length_nil]
  | cons y ys ih => simp [lastIndexOf, ih]

/-! ## Lemmas on numerals -/

theorem isDigit_ne_of_not_digit {c d : Char} (h : isDigit c = true) (hd : isDigit d = false) :
    c ≠ d := by
  intro e; rw [e, hd] at h; exact Bool.noConfusion h

theorem readSign_of_isDigit {c : Char} (cs : Str) (h : isDigit c = true) :
    readSign (c :: cs) = (false, c :: cs) := by
  have h1 : c ≠ '-' := isDigit_ne_of_not_digit h (by decide)
  have h2 : c ≠ '+' := isDigit_ne_of_not_digit h (by decide)
  unfold readSign
  split
  · rename_i heq; simp at heq; exact absurd heq.1 h1
  · rename_i heq; simp at heq; exact absurd heq.1 h2
  · rfl

theorem takeWhile_isDigit_eq_self {s : Str} (h : AllDigits s) : s.takeWhile isDigit = s :=
  List.takeWhile_eq_self_iff.mpr h

theorem dropWhile_isDigit_eq_nil {s : Str} (h : AllDigits s) : s.dropWhile isDigit = [] :=
  List.dropWhile_eq_nil_iff.mpr h

theorem readDecimalDigits_numeral {ip : Str} {fp : Option Str} (h : IsNumeral ip fp) :
    readDecimalDigits (numeral ip fp) = (ip, fp.getD [], []) := by
  obtain ⟨_, hip, hfp⟩ := h
  cases fp with
  | none =>
    simp [readDecimalDigits, numeral, takeWhile_isDigit_eq_self hip,
      dropWhile_isDigit_eq_nil hip]
  | some f =>
    have hf : AllDigits f := hfp f rfl
    have hdot : isDigit '.' = false := by decide
    simp only [readDecimalDigits, numeral, Option.getD_some]
    rw [List.takeWhile_append_of_pos hip, List.dropWhile_append_of_pos hip]
    simp [List.takeWhile, List.dropWhile, hdot, takeWhile_isDigit_eq_self hf,
      dropWhile_isDigit_eq_nil hf]

theorem natOfDigits_append (a b : Str) :
    natOfDigits (a ++ b) = natOfDigits a * 10 ^ b.length + natOfDigits b := by
  unfold natOfDigits
  rw [List.foldl_append]
  generalize List.foldl (fun n c => 10 * n + digitVal c) 0 a = m
  induction b generalizing m with
  | nil => simp
  | cons x xs ih =>
    simp only [List.foldl_cons, List.length_cons]
    rw [ih (10 * m + digitVal x), ih (10 * 0 + digitVal x)]
    ring

theorem decimal_neg (m k : Nat) : decimal m (-(k : Int)) = (m : ℚ) / 10 ^ k := by
  unfold decimal
  by_cases hk : k = 0
  · subst hk; simp
  · have : ¬ (0 : Int) ≤ -(k : Int) := by omega
    rw [if_neg this, Rat.mkRat_eq_div]
    simp

/-! ## Lemmas on the Number value -/

theorem pow_log2Aux_le (fuel n : Nat) (h : 1 ≤ n) : 2 ^ log2Aux fuel n ≤ n := by
  induction fuel generalizing n with
  | zero => simpa [log2Aux] using h
  | succ f ih =>
    rw [log2Aux]
    split_ifs with h2
    · simpa using h
    · have h3 : 1 ≤ n / 2 := by omega
      have h4 := ih (n / 2) h3
      rw [pow_succ]
      omega

theorem le_roundHalfEven (a b : Nat) : a / b ≤ roundHalfEven a b := by
  unfold roundHalfEven
  simp only
  split_ifs <;> omega

theorem roundHalfEven_one (a : Nat) : roundHalfEven a 1 = a := by
  unfold roundHalfEven
  simp [Nat.mod_one]

theorem toDoubleAbs_natCast (n : Nat) :
    toDoubleAbs n 1 = none ∨
      ∃ m : Nat, toDoubleAbs n 1 = some (m : ℚ) ∧ (1 ≤ n → 1 ≤ m) := by
  unfold toDoubleAbs
  by_cases h0 : n = 0
  · exact Or.inr ⟨0, by simp [h0], by omega⟩
  · rw [if_neg h0]
    have hn : 1 ≤ n := by omega
    have hbe : binaryExponent n 1 = (log2Aux n n : Int) := by
      simp [binaryExponent, hn]
    have hmax : max (log2Aux n n : Int) (-1022) = (log2Aux n n : Int) := by omega
    simp only [hbe, hmax]
    by_cases hex : (0 : Int) ≤ (log2Aux n n : Int) - 52
    · rw [if_pos hex]
      split_ifs
      · exact Or.inl rfl
      · refine Or.inr ⟨_, rfl, fun _ => ?_⟩
        have hj : ((log2Aux n n : Int) - 52).toNat ≤ log2Aux n n := by omega
        have h1 : 2 ^ ((log2Aux n n : Int) - 52).toNat ≤ n :=
          le_trans (Nat.pow_le_pow_right (by decide) hj) (pow_log2Aux_le n n hn)
        have h2 : 1 ≤ n / (1 * 2 ^ ((log2Aux n n : Int) - 52).toNat) := by
          rw [one_mul]
          exact (Nat.one_le_div_iff (by positivity)).mpr h1
        have h3 := le_roundHalfEven n (1 * 2 ^ ((log2Aux n n : Int) - 52).toNat)
        have h4 : 1 ≤ 2 ^ ((log2Aux n n : Int) - 52).toNat := Nat.one_le_two_pow
        exact Nat.one_le_iff_ne_zero.mpr
          (Nat.mul_ne_zero (by omega) (by omega))
    · rw [if_neg hex]
      refine Or.inr ⟨n, ?_, id⟩
      rw [roundHalfEven_one, Rat.mkRat_eq_div]
      push_cast
      field_simp

theorem toDouble_natCast (n : Nat) :
    toDouble (n : ℚ) = .inf false ∨
      ∃ m : Nat, toDouble (n : ℚ) = .fin (m : ℚ) ∧ (1 ≤ n → 1 ≤ m) := by
  have hnum : (n : ℚ).num = (n : Int) := Rat.num_natCast n
  have hden : (n : ℚ).den = 1 := Rat.den_natCast n
  have hneg : decide ((n : Int) < 0) = false := by simp
  unfold toDouble
  rw [hnum, hden, Int.natAbs_ofNat, hneg]
  rcases toDoubleAbs_natCast n with h | ⟨m, h, hm⟩
  · rw [h]; exact Or.inl rfl
  · rw [h]; exact Or.inr ⟨m, by simp [signed], hm⟩

theorem toDouble_signed_natCast (neg : Bool) (n : Nat) :
    (∃ b, toDouble (signed neg (n : ℚ)) = .inf b) ∨
      ∃ (b : Bool) (m : Nat), toDouble (signed neg (n : ℚ)) = .fin (signed b (m : ℚ)) := by
  cases neg with
  | false =>
    rcases toDouble_natCast n with h | ⟨m, h, _⟩
    · exact Or.inl ⟨false, h⟩
    · exact Or.inr ⟨false, m, h⟩
  | true =>
    have hnum : (signed true (n : ℚ)).num = -(n : Int) := by
      simp [signed]
    have hden : (signed true (n : ℚ)).den = 1 := by
      simp [signed]
    unfold toDouble
    rw [hnum, hden, Int.natAbs_neg, Int.natAbs_ofNat]
    rcases toDoubleAbs_natCast n with h | ⟨m, h, _⟩
    · rw [h]; exact Or.inl ⟨_, rfl⟩
    · rw [h]; exact Or.inr ⟨_, m, rfl⟩

theorem log2Aux_le (fuel n k : Nat) (h : n < 2 ^ (k + 1)) : log2Aux fuel n ≤ k := by
  induction fuel generalizing n k with
  | zero => simp [log2Aux]
  | succ f ih =>
    rw [log2Aux]
    split_ifs with h2
    · omega
    · cases k with
      | zero => simp at h; omega
      | succ k =>
        have := ih (n / 2) k (by rw [pow_succ] at h; omega)
        omega

theorem toDouble_natCast_of_lt {n : Nat} (h : n < 2 ^ 53) :
    toDouble (n : ℚ) = .fin (n : ℚ) := by
  have hnum : (n : ℚ).num = (n : Int) := Rat.num_natCast n
  have hden : (n : ℚ).den = 1 := Rat.den_natCast n
  have hneg : decide ((n : Int) < 0) = false := by simp
  have habs : toDoubleAbs n 1 = some (n : ℚ) := by
    unfold toDoubleAbs
    by_cases h0 : n = 0
    · simp [h0]
    · rw [if_neg h0]
      have hn : 1 ≤ n := by omega
      have hbe : binaryExponent n 1 = (log2Aux n n : Int) := by
        simp [binaryExponent, hn]
      have hmax : max (log2Aux n n : Int) (-1022) = (log2Aux n n : Int) := by omega
      have hl := log2Aux_le n n 52 h
      simp only [hbe, hmax]
      by_cases hex : (0 : Int) ≤ (log2Aux n n : Int) - 52
      · have h0 : (log2Aux n n : Int) - 52 = 0 := by omega
        have hbig : ¬ (2 ^ 1024 ≤ n) := fun h2 =>
          Nat.lt_irrefl _ (Nat.lt_of_lt_of_le h
            (Nat.le_trans (Nat.pow_le_pow_right (by decide) (by decide)) h2))
        rw [if_pos hex, h0]
        simp only [Int.toNat_zero, pow_zero, mul_one, roundHalfEven_one]
        rw [if_neg hbig]
      · rw [if_neg hex]
        rw [roundHalfEven_one, Rat.mkRat_eq_div]
        push_cast
        field_simp
  unfold toDouble
  rw [hnum, hden, Int.natAbs_ofNat, hneg, habs]
  simp [signed]

theorem toDouble_isNaN (q : ℚ) : (toDouble q).isNaN = false := by
  unfold toDouble
  cases toDoubleAbs q.num.natAbs q.den <;> rfl

theorem parseFloat_numeral {ip : Str} {fp : Option Str} (h : IsNumeral ip fp) :
    parseFloat (numeral ip fp) = toDouble (numeralValue ip fp) := by
  have hd := readDecimalDigits_numeral h
  obtain ⟨hne, hip, hfp⟩ := h
  obtain ⟨c, cs, rfl⟩ := List.exists_cons_of_ne_nil hne
  have hc : isDigit c = true := hip c (by simp)
  have hnum : ∃ t, numeral (c :: cs) fp = c :: t := by
    cases fp <;> simp [numeral]
  obtain ⟨t, ht⟩ := hnum
  have hws : isWhiteSpace c = false := isWhiteSpace_eq_false_of_isDigit hc
  have hI : c ≠ 'I' := isDigit_ne_of_not_digit hc (by decide)
  unfold parseFloat
  rw [ht, dropWhile_eq_self_of_head (by simpa using hws), readSign_of_isDigit _ hc]
  have hinf : startsWith (c :: t) "Infinity".toList = false := by
    simp [startsWith, String.toList, List.isPrefixOf, hI.symm]
  simp only [hinf, Bool.false_eq_true, if_false]
  rw [← ht, hd]
  simp only [List.cons_ne_nil, false_and, if_false, readExponent, signed, zero_sub]
  rw [decimal_neg]
  congr 1
  cases fp with
  | none => simp [numeralValue]
  | some f =>
    simp only [Option.getD_some, numeralValue, natOfDigits_append]
    push_cast
    field_simp

theorem numeral_head {ip : Str} {fp : Option Str} (h : IsNumeral ip fp) :
    ∃ c t, numeral ip fp = c :: t ∧ isDigit c = true := by
  obtain ⟨hne, hip, _⟩ := h
  obtain ⟨c, cs, rfl⟩ := List.exists_cons_of_ne_nil hne
  have hc : isDigit c = true := hip c (by simp)
  cases fp with
  | none => exact ⟨c, cs, rfl, hc⟩
  | some f => exact ⟨c, cs ++ '.' :: f, rfl, hc⟩

theorem numeral_getLast {ip : Str} {fp : Option Str} (h : IsNumeral ip fp) :
    ∀ c ∈ (numeral ip fp).getLast?, isWhiteSpace c = false := by
  obtain ⟨hne, hip, hfp⟩ := h
  intro c hc
  have hmem : c ∈ numeral ip fp := List.mem_of_getLast?_eq_some hc
  cases fp with
  | none => exact isWhiteSpace_eq_false_of_isDigit (hip c hmem)
  | some f =>
    simp only [numeral, List.mem_append, List.mem_cons] at hmem
    rcases hmem with h1 | h2 | h3
    · exact isWhiteSpace_eq_false_of_isDigit (hip c h1)
    · subst h2; decide
    · exact isWhiteSpace_eq_false_of_isDigit (hfp f rfl c h3)

theorem numeral_head_not_ws {ip : Str} {fp : Option Str} (h : IsNumeral ip fp) :
    ∀ c ∈ (numeral ip fp).head?, isWhiteSpace c = false := by
  obtain ⟨c, t, ht, hc⟩ := numeral_head h
  intro d hd
  rw [ht] at hd
  simp at hd
  subst hd
  exact isWhiteSpace_eq_false_of_isDigit hc

theorem trim_numeral {ip : Str} {fp : Option Str} (h : IsNumeral ip fp) :
    trim (numeral ip fp) = numeral ip fp :=
  trim_eq_self (numeral_head_not_ws h) (numeral_getLast h)

theorem isNaNString_numeral {ip : Str} {fp : Option Str} (h : IsNumeral ip fp) :
    isNaNString (numeral ip fp) = false := by
  have hd := readDecimalDigits_numeral h
  obtain ⟨c, t, ht, hc⟩ := numeral_head h
  have hI : c ≠ 'I' := isDigit_ne_of_not_digit hc (by decide)
  have hlit : isStrDecimalLiteral (numeral ip fp) = true := by
    unfold isStrDecimalLiteral
    rw [ht, readSign_of_isDigit _ hc]
    have hinf : ¬ (c :: t = "Infinity".toList) := by
      simp [String.toList, hI]
    simp only [hinf, if_false]
    rw [← ht, hd]
    simp [h.1]
  simp [isNaNString, trim_numeral h, hlit]

theorem coerceValue_numeral {ip : Str} {fp : Option Str} (h : IsNumeral ip fp) :
    coerceValue (numeral ip fp) = .num (toDouble (numeralValue ip fp)) := by
  obtain ⟨c, t, ht, hc⟩ := numeral_head h
  have hq1 : c ≠ '"' := isDigit_ne_of_not_digit hc (by decide)
  have hq2 : c ≠ '\'' := isDigit_ne_of_not_digit hc (by decide)
  have hs1 : startsWith (numeral ip fp) ['"'] = false := by
    rw [ht]; simp [startsWith, List.isPrefixOf, hq1.symm]
  have hs2 : startsWith (numeral ip fp) ['\''] = false := by
    rw [ht]; simp [startsWith, List.isPrefixOf, hq2.symm]
  have hne : (numeral ip fp).isEmpty = false := by rw [ht]; rfl
  simp [coerceValue, hs1, hs2, isNaNString_numeral h, hne, parseFloat_numeral h]

/-! ## Lemmas on the trailing number -/

theorem matchNumberHere_numeral {ip : Str} {fp : Option Str} (h : IsNumeral ip fp) :
    matchNumberHere (numeral ip fp) = some (numeral ip fp) := by
  obtain ⟨hne, hip, hfp⟩ := h
  cases fp with
  | none =>
    simp [matchNumberHere, numeral, takeWhile_isDigit_eq_self hip,
      dropWhile_isDigit_eq_nil hip, hne]
  | some f =>
    have hf : AllDigits f := hfp f rfl
    have hdot : isDigit '.' = false := by decide
    simp only [matchNumberHere, numeral]
    rw [List.takeWhile_append_of_pos hip, List.dropWhile_append_of_pos hip]
    simp [List.takeWhile, List.dropWhile, hdot, takeWhile_isDigit_eq_self hf,
      dropWhile_isDigit_eq_nil hf, hne]

theorem matchNumberHere_chars {s g : Str} (h : matchNumberHere s = some g) :
    ∀ c ∈ s, isDigit c = true ∨ c = '.' ∨ isWhiteSpace c = true := by
  intro c hc
  rw [← List.takeWhile_append_dropWhile isDigit s, List.mem_append] at hc
  rcases hc with h1 | h2
  · exact Or.inl (List.mem_takeWhile_imp h1)
  · unfold matchNumberHere at h
    simp only at h
    split_ifs at h with h0
    split at h
    · rename_i r heq
      split_ifs at h with hws
      rw [heq, List.mem_cons] at h2
      rcases h2 with h3 | h4
      · exact Or.inr (Or.inl h3)
      · rw [← List.takeWhile_append_dropWhile isDigit r, List.mem_append] at h4
        rcases h4 with h5 | h6
        · exact Or.inl (List.mem_takeWhile_imp h5)
        · exact Or.inr (Or.inr (List.all_eq_true.mp hws c h6))
    · split_ifs at h with hws
      exact Or.inr (Or.inr (List.all_eq_true.mp hws c h2))

theorem matchNumberHere_eq_none_of_mem {s : Str} {c : Char} (hc : c ∈ s)
    (h1 : isDigit c = false) (h2 : c ≠ '.') (h3 : isWhiteSpace c = false) :
    matchNumberHere s = none := by
  cases hm : matchNumberHere s with
  | none => rfl
  | some g =>
    rcases matchNumberHere_chars hm c hc with h | h | h
    · rw [h1] at h; exact Bool.noConfusion h
    · exact absurd h h2
    · rw [h3] at h; exact Bool.noConfusion h

theorem matchNumber_append_comma (a : Str) {ip : Str} {fp : Option Str} (h : IsNumeral ip fp) :
    matchNumber (a ++ ',' :: numeral ip fp) = some (numeral ip fp, numeral ip fp) := by
  obtain ⟨c, t, ht, hc⟩ := numeral_head h
  have hP : matchNumber (numeral ip fp) = some (numeral ip fp, numeral ip fp) := by
    have := matchNumberHere_numeral h
    rw [ht] at this ⊢
    simp [matchNumber, this]
  induction a with
  | nil =>
    have hnone : matchNumberHere (',' :: numeral ip fp) = none :=
      matchNumberHere_eq_none_of_mem (c := ',') (by simp) (by decide) (by decide) (by decide)
    simp [matchNumber, hnone, hP]
  | cons x xs ih =>
    have hnone : matchNumberHere (x :: (xs ++ ',' :: numeral ip fp)) = none :=
      matchNumberHere_eq_none_of_mem (c := ',') (by simp) (by decide) (by decide) (by decide)
    show matchNumber (x :: (xs ++ ',' :: numeral ip fp)) = _
    rw [matchNumber, hnone]
    exact ih

/-! ## Lemmas on `parseInputDict` -/

theorem slice1m1_cons_concat (a b : Char) (s : Str) : slice1m1 (a :: (s ++ [b])) = s := by
  simp [slice1m1]

theorem endsWith_concat (s : Str) (b : Char) : endsWith (s ++ [b]) [b] = true := by
  simp [endsWith, List.isPrefixOf]

theorem coerceValue_quoted {q : Char} (hq : isQuote q = true) (v : Str) :
    coerceValue (q :: (v ++ [q])) = .str v := by
  have he : endsWith (q :: (v ++ [q])) [q] = true := by
    have := endsWith_concat (q :: v) q
    simpa using this
  have hs : startsWith (q :: (v ++ [q])) [q] = true := by
    simp [startsWith, List.isPrefixOf]
  simp only [isQuote, Bool.or_eq_true, beq_iff_eq] at hq
  unfold coerceValue
  rcases hq with h | h
  · subst h
    rw [if_pos (by rw [hs, he]; simp)]
    rw [slice1m1_cons_concat]
  · subst h
    rw [if_pos (by rw [hs, he]; simp)]
    rw [slice1m1_cons_concat]

theorem parsePair_of_colon (obj : JSObject) {k : Str} (raw : Str) (h : ':' ∉ k) :
    parsePair obj (k ++ ':' :: raw) =
      obj.set (stripKeyQuotes (trim k)) (coerceValue (trim raw)) := by
  unfold parsePair
  rw [indexOf_append_of_not_mem raw h]
  simp

theorem parsePair_of_no_colon (obj : JSObject) {pair : Str} (h : ':' ∉ pair) :
    parsePair obj pair = obj := by
  unfold parsePair
  rw [indexOf_eq_none_of_not_mem h]

theorem not_mem_of_allDigits {s : Str} (h : AllDigits s) {c : Char} (hc : isDigit c = false) :
    c ∉ s := by
  intro hm; rw [h c hm] at hc; exact Bool.noConfusion hc

theorem not_mem_numeral {ip : Str} {fp : Option Str} (h : IsNumeral ip fp) {c : Char}
    (hc : isDigit c = false) (hdot : c ≠ '.') : c ∉ numeral ip fp := by
  obtain ⟨_, hip, hfp⟩ := h
  cases fp with
  | none => exact not_mem_of_allDigits hip hc
  | some f =>
    simp only [numeral, List.mem_append, List.mem_cons, not_or]
    exact ⟨not_mem_of_allDigits hip hc, hdot, not_mem_of_allDigits (hfp f rfl) hc⟩

theorem trim_cons_append {a : Char} (s : Str) {t : Str} (ha : isWhiteSpace a = false)
    (ht : t ≠ []) (hl : ∀ c ∈ t.getLast?, isWhiteSpace c = false) :
    trim (a :: (s ++ t)) = a :: (s ++ t) := by
  apply trim_eq_self
  · simpa using ha
  · intro c hc
    apply hl
    have : (a :: (s ++ t)).getLast? = t.getLast? := by
      rw [← List.cons_append, List.getLast?_append_of_ne_nil _ ht]
    rwa [this] at hc

theorem trim_cons_concat {a b : Char} (s : Str) (ha : isWhiteSpace a = false)
    (hb : isWhiteSpace b = false) : trim (a :: (s ++ [b])) = a :: (s ++ [b]) :=
  trim_cons_append s ha (by simp) (by simpa using hb)

theorem parseInputDict_dict (A S : Str) {ipB : Str} {fpB : Option Str}
    (hA : IsNumeral A none) (hS : ',' ∉ S) (hB : IsNumeral ipB fpB) :
    parseInputDict ("\x7b'age': ".toList ++ A ++ ", 'sex': '".toList ++ S ++ "', 'bmi': ".toList ++
        numeral ipB fpB ++ "\x7d".toList) =
      [("bmi".toList, .num (toDouble (numeralValue ipB fpB))), ("sex".toList, .str S),
       ("age".toList, .num (toDouble (natOfDigits A)))] := by
  have hAn : numeral A none = A := rfl
  have hAv : numeralValue A none = (natOfDigits A : ℚ) := rfl
  have hcA : ',' ∉ A := by
    have := not_mem_numeral hA (c := ',') (by decide) (by decide)
    rwa [hAn] at this
  have hcB : ',' ∉ numeral ipB fpB := not_mem_numeral hB (by decide) (by decide)
  have hBne : numeral ipB fpB ≠ [] := by
    obtain ⟨c, t, ht, _⟩ := numeral_head hB
    rw [ht]; simp
  -- the three pairs, as cut by `split` and as seen by the loop
  have hform : "\x7b'age': ".toList ++ A ++ ", 'sex': '".toList ++ S ++ "', 'bmi': ".toList ++
        numeral ipB fpB ++ "\x7d".toList =
      '{' :: ((("'age': ".toList ++ A) ++ ',' ::
        ((" 'sex': '".toList ++ S ++ ['\'']) ++ ',' ::
          (" 'bmi': ".toList ++ numeral ipB fpB))) ++ ['}']) := by
    simp [String.toList]
  have hp1 : trim ("'age': ".toList ++ A) = "'age'".toList ++ ':' :: (' ' :: A) := by
    have := trim_cons_append (a := '\'') ("age': ".toList) (t := A) (by decide) hA.1
      (by simpa [hAn] using numeral_getLast hA)
    simpa [String.toList] using this
  have hp2 : trim (" 'sex': '".toList ++ S ++ ['\'']) =
      "'sex'".toList ++ ':' :: (' ' :: '\'' :: (S ++ ['\''])) := by
    have h1 : " 'sex': '".toList ++ S ++ ['\''] =
        ' ' :: ('\'' :: ("sex': '".toList ++ S ++ ['\''])) := by
      simp [String.toList]
    rw [h1, trim_cons_of_isWhiteSpace (by decide)]
    have := trim_cons_concat (a := '\'') (b := '\'') ("sex': '".toList ++ S) (by decide) (by decide)
    simpa [String.toList] using this
  have hp3 : trim (" 'bmi': ".toList ++ numeral ipB fpB) =
      "'bmi'".toList ++ ':' :: (' ' :: numeral ipB fpB) := by
    have h1 : " 'bmi': ".toList ++ numeral ipB fpB =
        ' ' :: ('\'' :: ("bmi': ".toList ++ numeral ipB fpB)) := by
      simp [String.toList]
    rw [h1, trim_cons_of_isWhiteSpace (by decide)]
    have := trim_cons_append (a := '\'') ("bmi': ".toList) (t := numeral ipB fpB) (by decide)
      hBne (numeral_getLast hB)
    simpa [String.toList] using this
  have hv1 : coerceValue (trim (' ' :: A)) = .num (toDouble (natOfDigits A)) := by
    rw [trim_cons_of_isWhiteSpace (by decide)]
    have := coerceValue_numeral hA
    rw [hAn, hAv] at this
    rw [← hAn, trim_numeral hA, hAn, this]
  have hv2 : coerceValue (trim (' ' :: '\'' :: (S ++ ['\'']))) = .str S := by
    rw [trim_cons_of_isWhiteSpace (by decide),
      trim_cons_concat S (by decide) (by decide), coerceValue_quoted (by decide)]
  have hv3 : coerceValue (trim (' ' :: numeral ipB fpB)) =
      .num (toDouble (numeralValue ipB fpB)) := by
    rw [trim_cons_of_isWhiteSpace (by decide), trim_numeral hB, coerceValue_numeral hB]
  have hk1 : stripKeyQuotes (trim "'age'".toList) = "age".toList := by decide
  have hk2 : stripKeyQuotes (trim "'sex'".toList) = "sex".toList := by decide
  have hk3 : stripKeyQuotes (trim "'bmi'".toList) = "bmi".toList := by decide
  unfold parseInputDict
  rw [hform]
  rw [trim_cons_concat _ (by decide) (by decide)]
  have hsw : ∀ t : Str, startsWith ('{' :: t) ['{'] = true := by
    intro t; simp [startsWith, List.isPrefixOf]
  have hew : ∀ t : Str, endsWith ('{' :: (t ++ ['}'])) ['}'] = true := by
    intro t
    have := endsWith_concat ('{' :: t) '}'
    simpa using this
  simp only [hsw, hew, Bool.and_self, if_true, slice1m1_cons_concat]
  rw [split_append_sep _ (by simp [String.toList, hcA]),
    split_append_sep _ (by simp [String.toList, hS]),
    split_of_not_mem (by simp [String.toList, hcB])]
  simp only [List.map_cons, List.map_nil, List.foldl_cons, List.foldl_nil]
  rw [hp1, hp2, hp3]
  rw [parsePair_of_colon _ _ (by decide), parsePair_of_colon _ _ (by decide),
    parsePair_of_colon _ _ (by decide), hv1, hv2, hv3, hk1, hk2, hk3]
  rfl

/-! ## Lemmas on `parseInt` of a number -/

theorem parseIntNumber_natCast {n : Nat} (h1 : n < 10 ^ 21) :
    parseIntNumber (.fin (n : ℚ)) = .fin (n : ℚ) := by
  have hnum : (n : ℚ).num = (n : Int) := Rat.num_natCast n
  have hden : (n : ℚ).den = 1 := Rat.den_natCast n
  unfold parseIntNumber
  simp only [hnum, hden, Int.natAbs_ofNat]
  rw [if_pos ⟨trivial, h1⟩]

theorem parseIntNumber_zero : parseIntNumber (.fin 0) = .fin 0 := by
  have := parseIntNumber_natCast (n := 0) (by norm_num)
  simpa using this

/-! ## The record of a line in the dictionary format -/

theorem splitCharge_dictLine (A S : Str) {ipB ipP : Str} {fpB fpP : Option Str}
    (hP : IsNumeral ipP fpP) :
    splitCharge (dictLine A S (numeral ipB fpB) (numeral ipP fpP)) =
      some ("\x7b'age': ".toList ++ A ++ ", 'sex': '".toList ++ S ++ "', 'bmi': ".toList ++
        numeral ipB fpB ++ "\x7d".toList, toDouble (numeralValue ipP fpP)) := by
  have hPne : numeral ipP fpP ≠ [] := by
    obtain ⟨c, t, ht, _⟩ := numeral_head hP
    rw [ht]; simp
  obtain ⟨body, hbody⟩ : ∃ body : Str,
      "\x7b'age': ".toList ++ A ++ ", 'sex': '".toList ++ S ++ "', 'bmi': ".toList ++
        numeral ipB fpB = '{' :: body := ⟨_, by simp [String.toList]; rfl⟩
  have hline : dictLine A S (numeral ipB fpB) (numeral ipP fpP) =
      ('{' :: (body ++ ['}'])) ++ ',' :: numeral ipP fpP := by
    unfold dictLine
    rw [hbody]
    simp [String.toList]
  have hline2 : dictLine A S (numeral ipB fpB) (numeral ipP fpP) =
      ('{' :: ((body ++ ['}']) ++ [','])) ++ numeral ipP fpP := by
    rw [hline]; simp
  have hpre : "\x7b'age': ".toList ++ A ++ ", 'sex': '".toList ++ S ++ "', 'bmi': ".toList ++
        numeral ipB fpB ++ "\x7d".toList = '{' :: (body ++ ['}']) := by
    rw [hbody]; simp [String.toList]
  unfold splitCharge
  rw [hpre, hline, matchNumber_append_comma _ hP]
  simp only
  rw [← hline, hline2, lastIndexOf_append_self _ hPne, Option.getD_some, List.take_left',
    trim_cons_concat _ (by decide) (by decide), ← List.cons_append, endsWith_concat,
    if_pos rfl]
  · simp only [slice0m1, List.dropLast_concat]
    rw [trim_cons_concat _ (by decide) (by decide), parseFloat_numeral hP]
  · rfl

theorem not_isEmpty_of_trim_eq {s : Str} (h : trim s = s) (hne : s ≠ []) :
    (trim s).isEmpty = false := by
  rw [h]; cases s with
  | nil => exact absurd rfl hne
  | cons a t => rfl

theorem parsePredictionsFile_single_line (lower : Str → Str) {line : Str}
    (hnl : '\n' ∉ line) (hblank : (trim line).isEmpty = false) (hhead : isHeader line = false) :
    parsePredictionsFile lower (some line) = processLines lower [line] [] := by
  simp [parsePredictionsFile, nonBlankLines, split_of_not_mem hnl, hblank, hhead]

/-- C1 (amended): a line `{'age': A, 'sex': 'S', 'bmi': B},P`, with `A` a positive integer
numeral whose Number value `a` is below `10 ^ 21`, `S` a non-empty string without comma, and
`B`, `P` unsigned decimal numerals, makes the loop push exactly the record `{age: a,
sex: lower(S), bmi: Number(B), children: 0, smoker: "no", region: "southeast",
predicted_charge: Number(P)}`, where `Number` reads a numeral as the nearest binary64 value (an
infinity when it overflows); a file made of that line alone (not taken for a header) is
parsed to the list holding that one record; and `a` is `A` itself when `A` is below
`2 ^ 53`. -/
theorem processLine_dictLine (lower : Str → Str) (A S ipB ipP : Str) (fpB fpP : Option Str)
    (a : ℚ)
    (hA : IsNumeral A none) (hApos : 0 < natOfDigits A)
    (hAnum : toDouble (natOfDigits A : ℚ) = .fin a) (hAlt : a < 10 ^ 21)
    (hS : S ≠ []) (hScomma : ',' ∉ S)
    (hB : IsNumeral ipB fpB) (hP : IsNumeral ipP fpP) :
    processLine lower (dictLine A S (numeral ipB fpB) (numeral ipP fpP)) =
        .pushed
          { age := .fin a
            sex := lower S
            bmi := toDouble (numeralValue ipB fpB)
            children := .fin 0
            smoker := "no".toList
            region := "southeast".toList
            predicted_charge := toDouble (numeralValue ipP fpP) } ∧
      ('\n' ∉ S → isHeader (dictLine A S (numeral ipB fpB) (numeral ipP fpP)) = false →
        parsePredictionsFile lower (some (dictLine A S (numeral ipB fpB) (numeral ipP fpP))) =
          some
            [{ age := .fin a
               sex := lower S
               bmi := toDouble (numeralValue ipB fpB)
               children := .fin 0
               smoker := "no".toList
               region := "southeast".toList
               predicted_charge := toDouble (numeralValue ipP fpP) }]) ∧
      (natOfDigits A < 2 ^ 53 → a = (natOfDigits A : ℚ)) := by
  have hAn : numeral A none = A := rfl
  have hPne : numeral ipP fpP ≠ [] := by
    obtain ⟨c, t, ht, _⟩ := numeral_head hP
    rw [ht]; simp
  obtain ⟨body, hbody⟩ : ∃ body : Str,
      dictLine A S (numeral ipB fpB) (numeral ipP fpP) = '{' :: (body ++ numeral ipP fpP) :=
    ⟨"'age': ".toList ++ A ++ ", 'sex': '".toList ++ S ++ "', 'bmi': ".toList ++
      numeral ipB fpB ++ "\x7d,".toList, by simp [dictLine, String.toList]⟩
  have htrim : trim (dictLine A S (numeral ipB fpB) (numeral ipP fpP)) =
      dictLine A S (numeral ipB fpB) (numeral ipP fpP) := by
    rw [hbody]
    exact trim_cons_append _ (by decide) hPne (numeral_getLast hP)
  have hSne : S.isEmpty = false := by
    cases S with
    | nil => exact absurd rfl hS
    | cons a t => rfl
  obtain ⟨m, hm, hmpos, hmlt⟩ : ∃ m : Nat, a = (m : ℚ) ∧ 1 ≤ m ∧ m < 10 ^ 21 := by
    rcases toDouble_natCast (natOfDigits A) with h | ⟨m, h, hm1⟩
    · rw [h] at hAnum
      exact absurd hAnum (by simp)
    · rw [h] at hAnum
      have ha : (m : ℚ) = a := by
        injection hAnum
      refine ⟨m, ha.symm, hm1 hApos, ?_⟩
      rw [← ha] at hAlt
      exact_mod_cast hAlt
  have hline : processLine lower (dictLine A S (numeral ipB fpB) (numeral ipP fpP)) =
        .pushed
          { age := .fin a
            sex := lower S
            bmi := toDouble (numeralValue ipB fpB)
            children := .fin 0
            smoker := "no".toList
            region := "southeast".toList
            predicted_charge := toDouble (numeralValue ipP fpP) } := by
    unfold processLine
    simp only [htrim]
    rw [splitCharge_dictLine A S hP]
    simp only [parseInputDict_dict A S hA hScomma hB, hAnum, hm]
    have h1 : (dictLine A S (numeral ipB fpB) (numeral ipP fpP)).isEmpty = false := by
      rw [hbody]; rfl
    have h2 : startsWith (dictLine A S (numeral ipB fpB) (numeral ipP fpP)) ['#'] = false := by
      rw [hbody]; simp [startsWith, List.isPrefixOf]
    have hq : ((m : ℚ) != 0) = true := by
      have : (m : ℚ) ≠ 0 := by
        exact_mod_cast (Nat.pos_iff_ne_zero.mp hmpos)
      simpa using this
    simp [h1, h2, toDouble_isNaN, assemble, JSObject.get, String.toList, truthy, hSne, hq,
      toLowerCaseValue, lowerOrDefault, childrenOrZero, parseIntValue, parseFloatValue,
      parseIntNumber_natCast hmlt, parseIntNumber_zero]
  refine ⟨hline, ?_, ?_⟩
  swap
  · intro hlt
    rw [toDouble_natCast_of_lt hlt] at hAnum
    injection hAnum with h
    exact h.symm
  intro hSnl hhead
  have hnl : '\n' ∉ dictLine A S (numeral ipB fpB) (numeral ipP fpP) := by
    have h1 : '\n' ∉ A := by
      have := not_mem_numeral hA (c := '\n') (by decide) (by decide)
      rwa [hAn] at this
    have h2 : '\n' ∉ numeral ipB fpB := not_mem_numeral hB (by decide) (by decide)
    have h3 : '\n' ∉ numeral ipP fpP := not_mem_numeral hP (by decide) (by decide)
    simp [dictLine, String.toList, h1, h2, h3, hSnl]
  rw [parsePredictionsFile_single_line lower hnl
    (not_isEmpty_of_trim_eq htrim (by rw [hbody]; simp)) hhead]
  simp [processLines, hline]

theorem processLine_dictLine_witness :
    dictLine "25".toList "female".toList (numeral "24".toList (some "0".toList))
        (numeral "6170".toList (some "00".toList)) =
      "\x7b'age': 25, 'sex': 'female', 'bmi': 24.0\x7d,6170.00".toList ∧
    processLine asciiLowerCase
        (dictLine "25".toList "female".toList (numeral "24".toList (some "0".toList))
          (numeral "6170".toList (some "00".toList))) =
      .pushed
        { age := .fin 25
          sex := "female".toList
          bmi := .fin 24
          children := .fin 0
          smoker := "no".toList
          region := "southeast".toList
          predicted_charge := .fin 6170 } :=
  ⟨by decide,
   (processLine_dictLine asciiLowerCase "25".toList "female".toList "24".toList "6170".toList
      (some "0".toList) (some "00".toList) 25 (by decide) (by decide) (by decide!)
      (by norm_num) (by decide) (by decide) (by decide) (by decide)).1.trans (by decide!)⟩

/-- C1 as stated fails for large ages and for numerals that are not binary64 values.  With
`A = 1000000000000000000000` (`10 ^ 21`) the number read for `age` is printed as `1e+21` by
`parseInt`, which reads `1` back, so the record has `age = 1`, not `A`; the same happens for
`A = 999999999999999999999`, which is read as the Number `10 ^ 21`.  With a `P` of one followed
by 309 zeros the record has `predicted_charge = Infinity`, not `P`. -/
theorem processLine_dictLine_age_1e21 :
    (IsNumeral "1000000000000000000000".toList none ∧
      0 < natOfDigits "1000000000000000000000".toList ∧
      processLine asciiLowerCase
          (dictLine "1000000000000000000000".toList "female".toList "24.0".toList
            "6170.00".toList) =
        .pushed
          { age := .fin 1
            sex := "female".toList
            bmi := .fin 24
            children := .fin 0
            smoker := "no".toList
            region := "southeast".toList
            predicted_charge := .fin 6170 } ∧
      (JSNumber.fin 1 ≠ .fin (natOfDigits "1000000000000000000000".toList))) ∧
    (IsNumeral "999999999999999999999".toList none ∧
      natOfDigits "999999999999999999999".toList < 10 ^ 21 ∧
      processLine asciiLowerCase
          (dictLine "999999999999999999999".toList "female".toList "24.0".toList
            "6170.00".toList) =
        .pushed
          { age := .fin 1
            sex := "female".toList
            bmi := .fin 24
            children := .fin 0
            smoker := "no".toList
            region := "southeast".toList
            predicted_charge := .fin 6170 }) ∧
    (IsNumeral ('1' :: List.replicate 309 '0') none ∧
      processLine asciiLowerCase
          (dictLine "25".toList "female".toList "24.0".toList
            ('1' :: List.replicate 309 '0')) =
        .pushed
          { age := .fin 25
            sex := "female".toList
            bmi := .fin 24
            children := .fin 0
            smoker := "no".toList
            region := "southeast".toList
            predicted_charge := .inf false }) := by
  refine ⟨?_, ?_, ?_⟩ <;> decide!

/-! ## The loop over the lines -/

theorem processLines_eq_of_no_throw (lower : Str → Str) (ls : List Str)
    (acc : List PredictionRecord) (h : ∀ l ∈ ls, processLine lower l ≠ .thrown) :
    processLines lower ls acc =
      some (acc ++ ls.filterMap (fun l => (processLine lower l).record?)) := by
  induction ls generalizing acc with
  | nil => simp [processLines]
  | cons l ls ih =>
    have hl : processLine lower l ≠ .thrown := h l (by simp)
    have hls : ∀ l' ∈ ls, processLine lower l' ≠ .thrown := fun l' hl' => h l' (by simp [hl'])
    unfold processLines
    cases hp : processLine lower l with
    | thrown => exact absurd hp hl
    | pushed r =>
      simp only [ih _ hls]
      simp [List.filterMap_cons, hp, LineOutcome.record?]
    | skipped => simp [ih _ hls, List.filterMap_cons, hp, LineOutcome.record?]
    | noCharge => simp [ih _ hls, List.filterMap_cons, hp, LineOutcome.record?]
    | invalidCharge => simp [ih _ hls, List.filterMap_cons, hp, LineOutcome.record?]
    | invalidInput => simp [ih _ hls, List.filterMap_cons, hp, LineOutcome.record?]

theorem processLines_eq_none_of_throw (lower : Str → Str) (ls : List Str)
    (acc : List PredictionRecord) (h : ∃ l ∈ ls, processLine lower l = .thrown) :
    processLines lower ls acc = none := by
  induction ls generalizing acc with
  | nil => simp at h
  | cons l ls ih =>
    unfold processLines
    cases hp : processLine lower l with
    | thrown => rfl
    | pushed r =>
      obtain ⟨l', hl', ht⟩ := h
      rcases List.mem_cons.mp hl' with e | e
      · subst e; rw [hp] at ht; exact LineOutcome.noConfusion ht
      · exact ih _ ⟨l', e, ht⟩
    | skipped =>
      obtain ⟨l', hl', ht⟩ := h
      rcases List.mem_cons.mp hl' with e | e
      · subst e; rw [hp] at ht; exact LineOutcome.noConfusion ht
      · exact ih _ ⟨l', e, ht⟩
    | noCharge =>
      obtain ⟨l', hl', ht⟩ := h
      rcases List.mem_cons.mp hl' with e | e
      · subst e; rw [hp] at ht; exact LineOutcome.noConfusion ht
      · exact ih _ ⟨l', e, ht⟩
    | invalidCharge =>
      obtain ⟨l', hl', ht⟩ := h
      rcases List.mem_cons.mp hl' with e | e
      · subst e; rw [hp] at ht; exact LineOutcome.noConfusion ht
      · exact ih _ ⟨l', e, ht⟩
    | invalidInput =>
      obtain ⟨l', hl', ht⟩ := h
      rcases List.mem_cons.mp hl' with e | e
      · subst e; rw [hp] at ht; exact LineOutcome.noConfusion ht
      · exact ih _ ⟨l', e, ht⟩

theorem processLines_eq_some (lower : Str → Str) {ls : List Str}
    {acc recs : List PredictionRecord} (h : processLines lower ls acc = some recs) :
    (∀ l ∈ ls, processLine lower l ≠ .thrown) ∧
      recs = acc ++ ls.filterMap (fun l => (processLine lower l).record?) := by
  have hno : ∀ l ∈ ls, processLine lower l ≠ .thrown := by
    intro l hl ht
    rw [processLines_eq_none_of_throw lower ls acc ⟨l, hl, ht⟩] at h
    exact Option.noConfusion h
  refine ⟨hno, ?_⟩
  rw [processLines_eq_of_no_throw lower ls acc hno] at h
  exact (Option.some.inj h).symm

theorem processLines_remove (lower : Str → Str) (pre post : List Str) {l : Str}
    (acc : List PredictionRecord) (h1 : (processLine lower l).record? = none)
    (h2 : processLine lower l ≠ .thrown) :
    processLines lower (pre ++ l :: post) acc = processLines lower (pre ++ post) acc := by
  induction pre generalizing acc with
  | nil =>
    simp only [List.nil_append]
    rw [processLines]
    cases hp : processLine lower l with
    | thrown => exact absurd hp h2
    | pushed r => rw [hp] at h1; simp [LineOutcome.record?] at h1
    | skipped => rfl
    | noCharge => rfl
    | invalidCharge => rfl
    | invalidInput => rfl
  | cons x xs ih =>
    simp only [List.cons_append]
    rw [processLines, processLines]
    cases processLine lower x with
    | thrown => rfl
    | pushed r => exact ih _
    | skipped => exact ih _
    | noCharge => exact ih _
    | invalidCharge => exact ih _
    | invalidInput => exact ih _

theorem parsePredictionsFile_eq (lower : Str → Str) (fileContent : Str)
    (h : nonBlankLines fileContent ≠ []) :
    parsePredictionsFile lower (some fileContent) =
      processLines lower (dataLines fileContent) [] := by
  unfold parsePredictionsFile dataLines
  cases hl : nonBlankLines fileContent with
  | nil => exact absurd hl h
  | cons first rest =>
    by_cases hh : isHeader first = true
    · simp [hl, hh]
    · simp [hl, hh]

theorem parsePredictionsFile_eq_none_of_blank (lower : Str → Str) (fileContent : Str)
    (h : nonBlankLines fileContent = []) :
    parsePredictionsFile lower (some fileContent) = none := by
  simp [parsePredictionsFile, h]

theorem mem_of_parsePredictionsFile (lower : Str → Str) {file : Option Str}
    {recs : List PredictionRecord} (h : parsePredictionsFile lower file = some recs)
    {r : PredictionRecord} (hr : r ∈ recs) :
    ∃ l : Str, processLine lower l = .pushed r := by
  cases file with
  | none => simp [parsePredictionsFile] at h
  | some fileContent =>
    by_cases hb : nonBlankLines fileContent = []
    · rw [parsePredictionsFile_eq_none_of_blank lower _ hb] at h
      exact Option.noConfusion h
    · rw [parsePredictionsFile_eq lower _ hb] at h
      obtain ⟨_, hrecs⟩ := processLines_eq_some lower h
      rw [hrecs, List.nil_append, List.mem_filterMap] at hr
      obtain ⟨l, _, hl⟩ := hr
      refine ⟨l, ?_⟩
      cases hp : processLine lower l with
      | pushed r' =>
        rw [hp] at hl
        simp only [LineOutcome.record?, Option.some.injEq] at hl
        rw [hl]
      | thrown => rw [hp] at hl; simp [LineOutcome.record?] at hl
      | skipped => rw [hp] at hl; simp [LineOutcome.record?] at hl
      | noCharge => rw [hp] at hl; simp [LineOutcome.record?] at hl
      | invalidCharge => rw [hp] at hl; simp [LineOutcome.record?] at hl
      | invalidInput => rw [hp] at hl; simp [LineOutcome.record?] at hl

/-! ## Lines in the `key=value` format -/

/-- C2 (the code differs): the line `age=40,sex=male,bmi=30.0,smoker=yes,region=northeast,38000.00`
of the documented `key=value` format has no colon in any pair, so `parseInputDict` returns an
empty object, the loop warns "Invalid input format" and the file yields no record. -/
theorem parsePredictionsFile_keyValue_line :
    parseInputDict "age=40,sex=male,bmi=30.0,smoker=yes,region=northeast".toList = [] ∧
    processLine asciiLowerCase
        "age=40,sex=male,bmi=30.0,smoker=yes,region=northeast,38000.00".toList =
      .invalidInput ∧
    parsePredictionsFile asciiLowerCase
        (some "age=40,sex=male,bmi=30.0,smoker=yes,region=northeast,38000.00".toList) =
      some [] := by
  decide

/-! ## Lines without a required field -/

theorem assemble_of_get_none (lower : Str → Str) (obj : JSObject) (charge : JSNumber)
    (h : obj.get "age".toList = none ∨ obj.get "sex".toList = none ∨
      obj.get "bmi".toList = none) :
    assemble lower obj charge = .invalidInput := by
  unfold assemble
  rcases h with h | h | h
  · rw [h]
  · rw [h]; cases obj.get "age".toList <;> rfl
  · rw [h]; cases obj.get "age".toList <;> cases obj.get "sex".toList <;> rfl

/-- C3: a line whose key-value mapping lacks `age`, `sex` or `bmi` pushes no record and throws
nothing, and the result of the loop is the same as if the line were absent. -/
theorem processLine_missing_required_field (lower : Str → Str) (rawLine : Str)
    (h : ∀ seg charge, splitCharge (trim rawLine) = some (seg, charge) →
      (parseInputDict seg).get "age".toList = none ∨
      (parseInputDict seg).get "sex".toList = none ∨
      (parseInputDict seg).get "bmi".toList = none) :
    (processLine lower rawLine).record? = none ∧ processLine lower rawLine ≠ .thrown ∧
      ∀ (pre post : List Str) (acc : List PredictionRecord),
        processLines lower (pre ++ rawLine :: post) acc =
          processLines lower (pre ++ post) acc := by
  have key : (processLine lower rawLine).record? = none ∧
      processLine lower rawLine ≠ .thrown := by
    unfold processLine
    simp only
    split_ifs with h0
    · exact ⟨rfl, fun e => LineOutcome.noConfusion e⟩
    · cases hs : splitCharge (trim rawLine) with
      | none => exact ⟨rfl, fun e => LineOutcome.noConfusion e⟩
      | some p =>
        obtain ⟨seg, charge⟩ := p
        simp only
        split_ifs with h1
        · exact ⟨rfl, fun e => LineOutcome.noConfusion e⟩
        · rw [assemble_of_get_none lower _ _ (h seg charge hs)]
          exact ⟨rfl, fun e => LineOutcome.noConfusion e⟩
  exact ⟨key.1, key.2, fun pre post acc => processLines_remove lower pre post acc key.1 key.2⟩

theorem processLine_missing_required_field_witness :
    (processLine asciiLowerCase "\x7b'sex': 'female', 'bmi': 24.0\x7d,6170.00".toList).record? =
      none ∧
    processLine asciiLowerCase "\x7b'sex': 'female', 'bmi': 24.0\x7d,6170.00".toList ≠ .thrown ∧
    ∀ (pre post : List Str) (acc : List PredictionRecord),
      processLines asciiLowerCase
          (pre ++ "\x7b'sex': 'female', 'bmi': 24.0\x7d,6170.00".toList :: post) acc =
        processLines asciiLowerCase (pre ++ post) acc :=
  processLine_missing_required_field asciiLowerCase
    "\x7b'sex': 'female', 'bmi': 24.0\x7d,6170.00".toList
    (by
      intro seg charge hs
      have e : splitCharge (trim "\x7b'sex': 'female', 'bmi': 24.0\x7d,6170.00".toList) =
          some ("\x7b'sex': 'female', 'bmi': 24.0\x7d".toList, .fin 6170) := by decide
      rw [e] at hs
      cases hs
      exact Or.inl (by decide))

/-! ## One failing line and the batch -/

/-- C4 (the code differs): a line whose `sex` is a number makes `sex.toLowerCase()` throw; the
error reaches the `catch` of `parsePredictionsFile`, which returns `null`, although the file
without that line yields one record. -/
theorem parsePredictionsFile_numeric_sex_aborts :
    processLine asciiLowerCase "\x7b'age': 30, 'sex': 1, 'bmi': 22.5\x7d,5000".toList = .thrown ∧
    parsePredictionsFile asciiLowerCase
      (some ("\x7b'age': 25, 'sex': 'female', 'bmi': 24.0\x7d,6170.00\n" ++
        "\x7b'age': 30, 'sex': 1, 'bmi': 22.5\x7d,5000").toList) = none ∧
    parsePredictionsFile asciiLowerCase
      (some "\x7b'age': 25, 'sex': 'female', 'bmi': 24.0\x7d,6170.00\n".toList) =
      some
        [{ age := .fin 25
           sex := "female".toList
           bmi := .fin 24
           children := .fin 0
           smoker := "no".toList
           region := "southeast".toList
           predicted_charge := .fin 6170 }] := by
  decide

/-! ## The number of entries returned -/

theorem processLine_of_comment (lower : Str → Str) {l : Str}
    (h : startsWith (trim l) ['#'] = true) : processLine lower l = .skipped := by
  simp [processLine, h]

theorem length_filterMap_record (lower : Str → Str) (ls : List Str) :
    (ls.filterMap (fun l => (processLine lower l).record?)).length =
      ls.countP (fun l => (processLine lower l).record?.isSome) := by
  induction ls with
  | nil => rfl
  | cons l ls ih =>
    rw [List.filterMap_cons, List.countP_cons]
    cases h : (processLine lower l).record? with
    | none => simp [ih]
    | some r => simp [ih]

theorem countP_record_nonTrivialLines (lower : Str → Str) (fileContent : Str) :
    (nonTrivialLines fileContent).countP (fun l => (processLine lower l).record?.isSome) =
      (dataLines fileContent).countP (fun l => (processLine lower l).record?.isSome) := by
  unfold nonTrivialLines
  rw [List.countP_filter]
  apply List.countP_congr
  intro l _
  by_cases hc : startsWith (trim l) ['#'] = true
  · simp [processLine_of_comment lower hc, LineOutcome.record?, hc]
  · simp [hc]

/-- C5 (amended): when the file has a non-blank line and no line throws, the list returned has
exactly `K` entries, one record per well-formed line among the `N` non-trivial lines (so at
most `N`); a malformed line contributes no entry. -/
theorem parsePredictionsFile_length (lower : Str → Str) (fileContent : Str)
    (hne : nonBlankLines fileContent ≠ [])
    (hno : ∀ l ∈ dataLines fileContent, processLine lower l ≠ .thrown) :
    ∃ recs, parsePredictionsFile lower (some fileContent) = some recs ∧
      recs.length =
        (nonTrivialLines fileContent).countP
          (fun l => (processLine lower l).record?.isSome) ∧
      recs.length ≤ (nonTrivialLines fileContent).length := by
  refine ⟨(dataLines fileContent).filterMap (fun l => (processLine lower l).record?),
    ?_, ?_, ?_⟩
  · rw [parsePredictionsFile_eq lower _ hne, processLines_eq_of_no_throw lower _ _ hno]
    simp
  · rw [length_filterMap_record, countP_record_nonTrivialLines]
  · rw [length_filterMap_record, ← countP_record_nonTrivialLines]
    exact List.countP_le_length _

theorem parsePredictionsFile_length_witness :
    ∃ recs, parsePredictionsFile asciiLowerCase
        (some "\x7b'age': 25, 'sex': 'female', 'bmi': 24.0\x7d,6170.00\ngarbage text".toList) =
          some recs ∧
      recs.length =
        (nonTrivialLines
          "\x7b'age': 25, 'sex': 'female', 'bmi': 24.0\x7d,6170.00\ngarbage text".toList).countP
          (fun l => (processLine asciiLowerCase l).record?.isSome) ∧
      recs.length ≤
        (nonTrivialLines
          "\x7b'age': 25, 'sex': 'female', 'bmi': 24.0\x7d,6170.00\ngarbage text".toList).length :=
  parsePredictionsFile_length asciiLowerCase
    "\x7b'age': 25, 'sex': 'female', 'bmi': 24.0\x7d,6170.00\ngarbage text".toList
    (by decide) (by decide)

/-- C5 as stated fails: the file `garbage text` has one non-trivial line (`N = 1`, `K = 0`),
and the list returned is empty, not of length `1`: no entry stands for the malformed line. -/
theorem parsePredictionsFile_garbage_no_entry :
    (nonTrivialLines "garbage text".toList).length = 1 ∧
    parsePredictionsFile asciiLowerCase (some "garbage text".toList) = some [] ∧
    ¬ ∃ recs, parsePredictionsFile asciiLowerCase (some "garbage text".toList) = some recs ∧
        recs.length = (nonTrivialLines "garbage text".toList).length := by
  refine ⟨by decide, by decide, ?_⟩
  rintro ⟨recs, h1, h2⟩
  have e : parsePredictionsFile asciiLowerCase (some "garbage text".toList) = some [] := by
    decide
  rw [e] at h1
  cases h1
  have e2 : (nonTrivialLines "garbage text".toList).length = 1 := by decide
  rw [e2] at h2
  exact absurd h2 (by decide)

/-! ## Lines without a numeric tail -/

/-- C6: a line with no trailing number on which the fallback finds no comma, or finds text
after the last comma that `parseFloat` reads as `NaN`, pushes no record and throws nothing. -/
theorem processLine_no_numeric_tail (lower : Str → Str) (rawLine : Str)
    (hnum : matchNumber (trim rawLine) = none)
    (hcomma : lastIndexOf [','] (trim rawLine) = none ∨
      ∃ i, lastIndexOf [','] (trim rawLine) = some i ∧
        parseFloat (trim ((trim rawLine).drop (i + 1))) = .nan) :
    (processLine lower rawLine).record? = none ∧ processLine lower rawLine ≠ .thrown := by
  unfold processLine
  simp only
  split_ifs with h0
  · exact ⟨rfl, fun e => LineOutcome.noConfusion e⟩
  · rcases hcomma with hc | ⟨i, hi, hnan⟩
    · simp only [splitCharge, hnum, hc]
      exact ⟨rfl, fun e => LineOutcome.noConfusion e⟩
    · simp only [splitCharge, hnum, hi, hnan, JSNumber.isNaN, if_true]
      exact ⟨rfl, fun e => LineOutcome.noConfusion e⟩

theorem processLine_no_numeric_tail_witness :
    (processLine asciiLowerCase "garbage text".toList).record? = none ∧
      processLine asciiLowerCase "garbage text".toList ≠ .thrown :=
  processLine_no_numeric_tail asciiLowerCase "garbage text".toList (by decide)
    (Or.inl (by decide))

/-! ## Quoted values -/

theorem dropWhile_append_cons_of_false {p : Char → Bool} (a : Str) {c : Char} (b : Str)
    (hc : p c = false) : (a ++ c :: b).dropWhile p = a.dropWhile p ++ c :: b := by
  induction a with
  | nil => simp [List.dropWhile, hc]
  | cons x xs ih =>
    by_cases hx : p x = true
    · simp [List.dropWhile, hx, ih]
    · simp [List.dropWhile, hx]

theorem trim_append_colon (k r : Str) {q : Char} (hq : isWhiteSpace q = false) :
    trim (k ++ ':' :: (r ++ [q])) = k.dropWhile isWhiteSpace ++ ':' :: (r ++ [q]) := by
  unfold trim
  rw [dropWhile_append_cons_of_false k (r ++ [q]) (by decide)]
  have hrev : (k.dropWhile isWhiteSpace ++ ':' :: (r ++ [q])).reverse =
      q :: (r.reverse ++ ':' :: (k.dropWhile isWhiteSpace).reverse) := by
    simp
  rw [hrev, dropWhile_eq_self_of_head (by simpa using hq), ← hrev, List.reverse_reverse]

theorem dropWhile_dropWhile (p : Char → Bool) (s : Str) :
    (s.dropWhile p).dropWhile p = s.dropWhile p := by
  induction s with
  | nil => rfl
  | cons x xs ih =>
    by_cases hx : p x = true
    · simp [List.dropWhile, hx, ih]
    · simp [List.dropWhile, hx]

theorem trim_dropWhile (s : Str) : trim (s.dropWhile isWhiteSpace) = trim s := by
  unfold trim
  rw [dropWhile_dropWhile]

theorem not_mem_dropWhile {p : Char → Bool} {s : Str} {c : Char} (h : c ∉ s) :
    c ∉ s.dropWhile p :=
  fun hm => h ((List.dropWhile_sublist p).subset hm)

theorem isQuote_not_ws {q : Char} (hq : isQuote q = true) : isWhiteSpace q = false := by
  simp only [isQuote, Bool.or_eq_true, beq_iff_eq] at hq
  rcases hq with h | h <;> subst h <;> decide

theorem endsWith_concat_of_ne (s : Str) {b c : Char} (h : b ≠ c) :
    endsWith (s ++ [b]) [c] = false := by
  simp [endsWith, List.isPrefixOf, h.symm]

/-- C7 (amended): for a pair `key: 'v'` or `key: "v"` (no comma in it, no colon in the key)
whose cleaned key is not `__proto__`, `parseInputDict` maps the cleaned key to the string `v`,
the quotes removed once and `v` untouched, whatever `v` looks like. -/
theorem parseInputDict_quoted_value (k v : Str) (q : Char) (hq : isQuote q = true)
    (hk1 : ',' ∉ k) (hk2 : ':' ∉ k) (hv : ',' ∉ v)
    (hproto : stripKeyQuotes (trim k) ≠ "__proto__".toList) :
    parseInputDict (k ++ ':' :: ' ' :: q :: (v ++ [q])) =
        [(stripKeyQuotes (trim k), .str v)] ∧
      (parseInputDict (k ++ ':' :: ' ' :: q :: (v ++ [q]))).get (stripKeyQuotes (trim k)) =
        some (.str v) := by
  have hqws : isWhiteSpace q = false := isQuote_not_ws hq
  have hqc : q ≠ ',' := by
    simp only [isQuote, Bool.or_eq_true, beq_iff_eq] at hq
    rcases hq with h | h <;> subst h <;> decide
  have hqb : q ≠ '}' := by
    simp only [isQuote, Bool.or_eq_true, beq_iff_eq] at hq
    rcases hq with h | h <;> subst h <;> decide
  have hform : k ++ ':' :: ' ' :: q :: (v ++ [q]) = k ++ ':' :: ((' ' :: q :: v) ++ [q]) := by
    simp
  have hmain : parseInputDict (k ++ ':' :: ' ' :: q :: (v ++ [q])) =
      [(stripKeyQuotes (trim k), .str v)] := by
    unfold parseInputDict
    rw [hform, trim_append_colon k _ hqws]
    have hends : endsWith (k.dropWhile isWhiteSpace ++ ':' :: ((' ' :: q :: v) ++ [q])) ['}'] =
        false := by
      have := endsWith_concat_of_ne (k.dropWhile isWhiteSpace ++ ':' :: (' ' :: q :: v)) hqb
      simpa using this
    simp only [hends, Bool.and_false, Bool.false_eq_true, if_false]
    have hnc : ',' ∉ k.dropWhile isWhiteSpace ++ ':' :: ((' ' :: q :: v) ++ [q]) := by
      have h1 : ',' ∉ k.dropWhile isWhiteSpace := not_mem_dropWhile hk1
      simp [h1, hv, hqc.symm]
    rw [split_of_not_mem hnc]
    simp only [List.map_cons, List.map_nil, List.foldl_cons, List.foldl_nil]
    rw [trim_append_colon _ _ hqws, dropWhile_dropWhile,
      parsePair_of_colon _ _ (not_mem_dropWhile hk2), trim_dropWhile]
    have hval : coerceValue (trim ((' ' :: q :: v) ++ [q])) = .str v := by
      have h1 : (' ' :: q :: v) ++ [q] = ' ' :: (q :: (v ++ [q])) := by simp
      rw [h1, trim_cons_of_isWhiteSpace (by decide), trim_cons_concat v hqws hqws,
        coerceValue_quoted hq]
    rw [hval]
    unfold JSObject.set
    rw [if_neg hproto]
  refine ⟨hmain, ?_⟩
  rw [hmain]
  simp [JSObject.get]

theorem parseInputDict_quoted_value_witness :
    "key".toList ++ ':' :: ' ' :: '\'' :: ("123".toList ++ ['\'']) = "key: '123'".toList ∧
    stripKeyQuotes (trim "key".toList) = "key".toList ∧
    parseInputDict ("key".toList ++ ':' :: ' ' :: '\'' :: ("123".toList ++ ['\''])) =
        [(stripKeyQuotes (trim "key".toList), .str "123".toList)] ∧
      (parseInputDict ("key".toList ++ ':' :: ' ' :: '\'' :: ("123".toList ++ ['\'']))).get
          (stripKeyQuotes (trim "key".toList)) =
        some (.str "123".toList) :=
  ⟨by decide, by decide,
   parseInputDict_quoted_value "key".toList "123".toList '\'' (by decide) (by decide)
    (by decide) (by decide) (by decide)⟩

/-- C7 as stated fails for the key `__proto__`: the write `obj['__proto__'] = '123'` goes to
the inherited setter, which ignores a string, so the object returned for `__proto__: '123'`
has no property and the key is not mapped to the string `123`. -/
theorem parseInputDict_proto_key :
    "__proto__".toList ++ ':' :: ' ' :: '\'' :: ("123".toList ++ ['\'']) =
      "__proto__: '123'".toList ∧
    parseInputDict "__proto__: '123'".toList = [] ∧
    (parseInputDict "__proto__: '123'".toList).get "__proto__".toList ≠
      some (.str "123".toList) := by
  decide

/-! ## What a pushed record holds -/

theorem processLine_pushed_inv {lower : Str → Str} {l : Str} {r : PredictionRecord}
    (h : processLine lower l = .pushed r) :
    ∃ seg charge, splitCharge (trim l) = some (seg, charge) ∧ charge.isNaN = false ∧
      assemble lower (parseInputDict seg) charge = .pushed r := by
  unfold processLine at h
  simp only at h
  split_ifs at h with h0
  cases hs : splitCharge (trim l) with
  | none => rw [hs] at h; exact LineOutcome.noConfusion h
  | some p =>
    obtain ⟨seg, charge⟩ := p
    rw [hs] at h
    simp only at h
    split_ifs at h with h1
    exact ⟨seg, charge, rfl, by simpa using h1, h⟩

theorem assemble_pushed_inv {lower : Str → Str} {obj : JSObject} {charge : JSNumber}
    {r : PredictionRecord} (h : assemble lower obj charge = .pushed r) :
    ∃ age sex bmi, obj.get "age".toList = some age ∧ obj.get "sex".toList = some sex ∧
      obj.get "bmi".toList = some bmi ∧ truthy (some age) = true ∧ truthy (some sex) = true ∧
      r.age = parseIntValue age ∧ toLowerCaseValue lower sex = some r.sex ∧
      r.bmi = parseFloatValue bmi ∧
      r.children = parseIntValue (childrenOrZero (obj.get "children".toList)) ∧
      lowerOrDefault lower (obj.get "smoker".toList) "no".toList = some r.smoker ∧
      lowerOrDefault lower (obj.get "region".toList) "southeast".toList = some r.region ∧
      r.predicted_charge = charge := by
  unfold assemble at h
  cases ha : obj.get "age".toList with
  | none => rw [ha] at h; exact LineOutcome.noConfusion h
  | some age =>
    cases hs : obj.get "sex".toList with
    | none => rw [ha, hs] at h; exact LineOutcome.noConfusion h
    | some sex =>
      cases hb : obj.get "bmi".toList with
      | none => rw [ha, hs, hb] at h; exact LineOutcome.noConfusion h
      | some bmi =>
        rw [ha, hs, hb] at h
        simp only at h
        split_ifs at h with ht
        cases h1 : toLowerCaseValue lower sex with
        | none => rw [h1] at h; exact LineOutcome.noConfusion h
        | some sexLower =>
          cases h2 : lowerOrDefault lower (obj.get "smoker".toList) "no".toList with
          | none => rw [h1, h2] at h; exact LineOutcome.noConfusion h
          | some smoker =>
            cases h3 : lowerOrDefault lower (obj.get "region".toList) "southeast".toList with
            | none => rw [h1, h2, h3] at h; exact LineOutcome.noConfusion h
            | some region =>
              rw [h1, h2, h3] at h
              simp only [LineOutcome.pushed.injEq] at h
              subst h
              simp only [Bool.and_eq_true] at ht
              exact ⟨age, sex, bmi, rfl, rfl, rfl, ht.1, ht.2, rfl, h1, rfl, rfl, rfl, rfl,
                rfl⟩

/-! ## The predicted charge of a record -/

/-- C8 (amended): in every record of the list returned by `parsePredictionsFile` the
`predicted_charge` is not `NaN`. -/
theorem parsePredictionsFile_charge_not_nan (lower : Str → Str) (file : Option Str)
    (recs : List PredictionRecord) (r : PredictionRecord)
    (h : parsePredictionsFile lower file = some recs) (hr : r ∈ recs) :
    r.predicted_charge.isNaN = false := by
  obtain ⟨l, hl⟩ := mem_of_parsePredictionsFile lower h hr
  obtain ⟨seg, charge, _, hc, ha⟩ := processLine_pushed_inv hl
  obtain ⟨_, _, _, _, _, _, _, _, _, _, _, _, _, _, hch⟩ := assemble_pushed_inv ha
  rw [hch]; exact hc

theorem parsePredictionsFile_charge_not_nan_witness :
    parsePredictionsFile asciiLowerCase
        (some "\x7b'age': 25, 'sex': 'female', 'bmi': 24.0\x7d,6170.00".toList) =
      some
        [{ age := .fin 25
           sex := "female".toList
           bmi := .fin 24
           children := .fin 0
           smoker := "no".toList
           region := "southeast".toList
           predicted_charge := .fin 6170 }] ∧
    JSNumber.isNaN
      (PredictionRecord.predicted_charge
        { age := .fin 25
          sex := "female".toList
          bmi := .fin 24
          children := .fin 0
          smoker := "no".toList
          region := "southeast".toList
          predicted_charge := .fin 6170 }) = false :=
  ⟨by decide,
   parsePredictionsFile_charge_not_nan asciiLowerCase
    (some "\x7b'age': 25, 'sex': 'female', 'bmi': 24.0\x7d,6170.00".toList)
    [{ age := .fin 25
       sex := "female".toList
       bmi := .fin 24
       children := .fin 0
       smoker := "no".toList
       region := "southeast".toList
       predicted_charge := .fin 6170 }]
    _ (by decide) (List.mem_singleton.mpr rfl)⟩

/-- C8 as stated fails under the last-comma fallback: the line
`{'age': 25, 'sex': 'f', 'bmi': 24},Infinity` has no trailing number, `parseFloat` reads the
text after the last comma as `Infinity`, which passes the `isNaN` test, and the record is
returned with an infinite `predicted_charge`. -/
theorem parsePredictionsFile_infinite_charge :
    matchNumber (trim "\x7b'age': 25, 'sex': 'f', 'bmi': 24\x7d,Infinity".toList) = none ∧
    parsePredictionsFile asciiLowerCase
        (some "\x7b'age': 25, 'sex': 'f', 'bmi': 24\x7d,Infinity".toList) =
      some
        [{ age := .fin 25
           sex := "f".toList
           bmi := .fin 24
           children := .fin 0
           smoker := "no".toList
           region := "southeast".toList
           predicted_charge := .inf false }] ∧
    (JSNumber.inf false).isFinite = false := by
  decide

/-! ## The test on the required fields -/

theorem matchNumber_some_inv {s m0 m1 : Str} (h : matchNumber s = some (m0, m1)) :
    matchNumberHere m0 = some m1 := by
  induction s with
  | nil => simp [matchNumber] at h
  | cons c cs ih =>
    rw [matchNumber] at h
    cases hm : matchNumberHere (c :: cs) with
    | none => rw [hm] at h; exact ih h
    | some g =>
      rw [hm] at h
      simp only [Option.some.injEq, Prod.mk.injEq] at h
      rw [← h.1, ← h.2]; exact hm

theorem matchNumberHere_head {s g : Str} (h : matchNumberHere s = some g) :
    ∃ c t, g = c :: t ∧ isDigit c = true := by
  unfold matchNumberHere at h
  simp only at h
  split_ifs at h with h0
  obtain ⟨c, t, hct⟩ := List.exists_cons_of_ne_nil h0
  have hc : isDigit c = true :=
    List.mem_takeWhile_imp (l := s) (by rw [hct]; simp)
  split at h
  · split_ifs at h
    simp only [Option.some.injEq] at h
    exact ⟨c, t ++ '.' :: _, by rw [← h, hct]; rfl, hc⟩
  · split_ifs at h
    simp only [Option.some.injEq] at h
    exact ⟨c, t, by rw [← h, hct], hc⟩

theorem readDecimalDigits_fst (u : Str) : (readDecimalDigits u).1 = u.takeWhile isDigit := by
  unfold readDecimalDigits
  split <;> rfl

theorem parseFloat_isNaN_of_digit {c : Char} (t : Str) (hc : isDigit c = true) :
    (parseFloat (c :: t)).isNaN = false := by
  have hws : isWhiteSpace c = false := isWhiteSpace_eq_false_of_isDigit hc
  have hI : c ≠ 'I' := isDigit_ne_of_not_digit hc (by decide)
  unfold parseFloat
  rw [dropWhile_eq_self_of_head (by simpa using hws), readSign_of_isDigit _ hc]
  have hinf : startsWith (c :: t) "Infinity".toList = false := by
    simp [startsWith, String.toList, List.isPrefixOf, hI.symm]
  simp only [hinf, Bool.false_eq_true, if_false]
  have hip : (readDecimalDigits (c :: t)).1 ≠ [] := by
    rw [readDecimalDigits_fst]; simp [List.takeWhile, hc]
  rw [if_neg (fun h => hip h.1)]
  exact toDouble_isNaN _

theorem splitCharge_of_matchNumber {s m0 m1 seg : Str} {charge : JSNumber}
    (hm : matchNumber s = some (m0, m1)) (hs : splitCharge s = some (seg, charge)) :
    charge.isNaN = false := by
  unfold splitCharge at hs
  rw [hm] at hs
  simp only [Option.some.injEq, Prod.mk.injEq] at hs
  obtain ⟨c, t, hct, hc⟩ := matchNumberHere_head (matchNumber_some_inv hm)
  rw [← hs.2, hct]
  exact parseFloat_isNaN_of_digit t hc

theorem lowerOrDefault_isSome (lower : Str → Str) (v : Option JSValue) (dflt : Str)
    (h : ∀ n, v = some (.num n) → truthy (some (.num n)) = false) :
    ∃ s, lowerOrDefault lower v dflt = some s := by
  unfold lowerOrDefault
  cases v with
  | none => exact ⟨dflt, rfl⟩
  | some x =>
    cases x with
    | str s =>
      simp only
      split_ifs
      · exact ⟨lower s, rfl⟩
      · exact ⟨dflt, rfl⟩
    | num n =>
      simp only [h n rfl, Bool.false_eq_true, if_false]
      exact ⟨dflt, rfl⟩

/-- C9 (amended): a line that is not a comment, has a trailing number, and whose mapping holds
`age` as a non-zero number, `sex` as a non-empty string and `bmi` as a number (zero included),
with `smoker` and `region` absent, strings or falsy, makes the loop push a record; it carries
that `bmi`, the lowercased `sex` and the trailing number. -/
theorem processLine_pushes_of_required_fields (lower : Str → Str) (rawLine seg sex : Str)
    (m : Str × Str) (charge age bmi : JSNumber)
    (hcomment : startsWith (trim rawLine) ['#'] = false)
    (hnum : matchNumber (trim rawLine) = some m)
    (hsplit : splitCharge (trim rawLine) = some (seg, charge))
    (hage : (parseInputDict seg).get "age".toList = some (.num age))
    (hagenz : truthy (some (.num age)) = true)
    (hsex : (parseInputDict seg).get "sex".toList = some (.str sex)) (hsexne : sex ≠ [])
    (hbmi : (parseInputDict seg).get "bmi".toList = some (.num bmi))
    (hsmoker : ∀ n, (parseInputDict seg).get "smoker".toList = some (.num n) →
      truthy (some (.num n)) = false)
    (hregion : ∀ n, (parseInputDict seg).get "region".toList = some (.num n) →
      truthy (some (.num n)) = false) :
    ∃ r, processLine lower rawLine = .pushed r ∧ r.age = parseIntNumber age ∧
      r.sex = lower sex ∧ r.bmi = bmi ∧ r.predicted_charge = charge := by
  have hne : (trim rawLine).isEmpty = false := by
    cases ht : trim rawLine with
    | nil => rw [ht] at hnum; simp [matchNumber] at hnum
    | cons a t => rfl
  have hcharge : charge.isNaN = false := by
    obtain ⟨m0, m1⟩ := m
    exact splitCharge_of_matchNumber hnum hsplit
  have hsext : truthy (some (.str sex)) = true := by
    cases sex with
    | nil => exact absurd rfl hsexne
    | cons a t => rfl
  obtain ⟨smoker, hsm⟩ := lowerOrDefault_isSome lower _ "no".toList hsmoker
  obtain ⟨region, hrg⟩ := lowerOrDefault_isSome lower _ "southeast".toList hregion
  refine ⟨{ age := parseIntNumber age
            sex := lower sex
            bmi := bmi
            children :=
              parseIntValue (childrenOrZero ((parseInputDict seg).get "children".toList))
            smoker := smoker
            region := region
            predicted_charge := charge }, ?_, rfl, rfl, rfl, rfl⟩
  unfold processLine
  simp only [hne, hcomment, hsplit, hcharge, Bool.or_self, Bool.false_eq_true, if_false]
  unfold assemble
  rw [hage, hsex, hbmi]
  simp only [hagenz, hsext, Bool.and_self, if_true, toLowerCaseValue, hsm, hrg, parseIntValue,
    parseFloatValue]

theorem processLine_pushes_of_required_fields_witness :
    ∃ r, processLine asciiLowerCase "\x7b'age': 25, 'sex': 'F', 'bmi': 0\x7d,100".toList =
        .pushed r ∧
      r.age = parseIntNumber (.fin 25) ∧ r.sex = asciiLowerCase "F".toList ∧ r.bmi = .fin 0 ∧
      r.predicted_charge = .fin 100 :=
  processLine_pushes_of_required_fields asciiLowerCase
    "\x7b'age': 25, 'sex': 'F', 'bmi': 0\x7d,100".toList
    "\x7b'age': 25, 'sex': 'F', 'bmi': 0\x7d".toList "F".toList
    ("100".toList, "100".toList) (.fin 100) (.fin 25) (.fin 0)
    (by decide) (by decide) (by decide) (by decide) (by decide) (by decide) (by decide)
    (by decide)
    (by
      intro n hn
      have e : (parseInputDict "\x7b'age': 25, 'sex': 'F', 'bmi': 0\x7d".toList).get
          "smoker".toList = none := by decide
      rw [e] at hn
      exact Option.noConfusion hn)
    (by
      intro n hn
      have e : (parseInputDict "\x7b'age': 25, 'sex': 'F', 'bmi': 0\x7d".toList).get
          "region".toList = none := by decide
      rw [e] at hn
      exact Option.noConfusion hn)

/-- C9 as stated fails at `age = 0`: the line `{'age': 0, 'sex': 'f', 'bmi': 24.0},100` has a
trailing number and a mapping with `age` the number `0`, `sex` the string `f` and `bmi` the
number `24`, yet the test `inputDict.age && ...` is false and no record is pushed. -/
theorem processLine_age_zero_rejected :
    matchNumber (trim "\x7b'age': 0, 'sex': 'f', 'bmi': 24.0\x7d,100".toList) =
      some ("100".toList, "100".toList) ∧
    splitCharge (trim "\x7b'age': 0, 'sex': 'f', 'bmi': 24.0\x7d,100".toList) =
      some ("\x7b'age': 0, 'sex': 'f', 'bmi': 24.0\x7d".toList, .fin 100) ∧
    parseInputDict "\x7b'age': 0, 'sex': 'f', 'bmi': 24.0\x7d".toList =
      [("bmi".toList, .num (.fin 24)), ("sex".toList, .str "f".toList),
       ("age".toList, .num (.fin 0))] ∧
    processLine asciiLowerCase "\x7b'age': 0, 'sex': 'f', 'bmi': 24.0\x7d,100".toList =
      .invalidInput ∧
    parsePredictionsFile asciiLowerCase
      (some "\x7b'age': 0, 'sex': 'f', 'bmi': 24.0\x7d,100".toList) = some [] := by
  decide

/-! ## The types of the numeric fields -/

theorem isInteger_signed_natCast (neg : Bool) (n : Nat) :
    (JSNumber.fin (signed neg (n : ℚ))).isInteger = true := by
  cases neg <;> simp [JSNumber.isInteger, signed]

theorem toDouble_signed_natCast_typed (neg : Bool) (n : Nat) :
    (toDouble (signed neg (n : ℚ))).isInteger = true ∨
      ∃ b, toDouble (signed neg (n : ℚ)) = .inf b := by
  rcases toDouble_signed_natCast neg n with ⟨b, h⟩ | ⟨b, m, h⟩
  · exact Or.inr ⟨b, h⟩
  · rw [h]; exact Or.inl (isInteger_signed_natCast b m)

theorem parseIntString_typed (s : Str) :
    (parseIntString s).isNaN = true ∨ (parseIntString s).isInteger = true ∨
      ∃ b, parseIntString s = .inf b := by
  unfold parseIntString
  simp only
  split
  · split_ifs
    · exact Or.inl rfl
    · exact Or.inr (toDouble_signed_natCast_typed _ _)
    · exact Or.inl rfl
    · exact Or.inr (toDouble_signed_natCast_typed _ _)
  · split_ifs
    · exact Or.inl rfl
    · exact Or.inr (toDouble_signed_natCast_typed _ _)

theorem parseIntNumber_typed (x : JSNumber) :
    (parseIntNumber x).isNaN = true ∨ (parseIntNumber x).isInteger = true ∨
      ∃ b, parseIntNumber x = .inf b := by
  cases x with
  | nan => exact Or.inl rfl
  | inf b => exact Or.inl rfl
  | fin q =>
    unfold parseIntNumber
    simp only
    split_ifs with h1 h2 h3
    · exact Or.inr (Or.inl (by simp [JSNumber.isInteger, h1.1]))
    · exact Or.inr (Or.inl (isInteger_signed_natCast _ _))
    · exact Or.inr (Or.inl (by simp [JSNumber.isInteger]))
    · split
      · rename_i r hr
        rcases toDouble_natCast _ with h | ⟨m, h, _⟩
        · rw [h] at hr; exact JSNumber.noConfusion hr
        · rw [h] at hr
          injection hr with hr
          rw [← hr]
          exact Or.inr (Or.inl (isInteger_signed_natCast _ _))
      · rename_i hother
        rcases toDouble_natCast _ with h | ⟨m, h, _⟩
        · rw [h]; exact Or.inr (Or.inr ⟨false, rfl⟩)
        · exact absurd h (hother _)

theorem parseIntValue_typed (v : JSValue) :
    (parseIntValue v).isNaN = true ∨ (parseIntValue v).isInteger = true ∨
      ∃ b, parseIntValue v = .inf b := by
  cases v with
  | str s => exact parseIntString_typed s
  | num n => exact parseIntNumber_typed n

/-- C10 (amended): in every record of the list returned by `parsePredictionsFile`, `age` is
`NaN`, an integer or an infinity, and so is `children`; nothing is promised on `bmi`, which
may be `NaN`. -/
theorem parsePredictionsFile_age_children_typed (lower : Str → Str) (file : Option Str)
    (recs : List PredictionRecord) (r : PredictionRecord)
    (h : parsePredictionsFile lower file = some recs) (hr : r ∈ recs) :
    (r.age.isNaN = true ∨ r.age.isInteger = true ∨ ∃ b, r.age = .inf b) ∧
      (r.children.isNaN = true ∨ r.children.isInteger = true ∨
        ∃ b, r.children = .inf b) := by
  obtain ⟨l, hl⟩ := mem_of_parsePredictionsFile lower h hr
  obtain ⟨seg, charge, _, _, ha⟩ := processLine_pushed_inv hl
  obtain ⟨age, _, _, _, _, _, _, _, hage, _, _, hch, _⟩ := assemble_pushed_inv ha
  rw [hage, hch]
  exact ⟨parseIntValue_typed _, parseIntValue_typed _⟩

theorem parsePredictionsFile_age_children_typed_witness :
    parsePredictionsFile asciiLowerCase
        (some "\x7b'age': 25.7, 'sex': 'f', 'bmi': 24.0, 'children': '2x'\x7d,100".toList) =
      some
        [{ age := .fin 25
           sex := "f".toList
           bmi := .fin 24
           children := .fin 2
           smoker := "no".toList
           region := "southeast".toList
           predicted_charge := .fin 100 }] ∧
    ((JSNumber.fin 25).isNaN = true ∨ (JSNumber.fin 25).isInteger = true ∨
        ∃ b, JSNumber.fin 25 = .inf b) ∧
      ((JSNumber.fin 2).isNaN = true ∨ (JSNumber.fin 2).isInteger = true ∨
        ∃ b, JSNumber.fin 2 = .inf b) :=
  ⟨by decide!,
   parsePredictionsFile_age_children_typed asciiLowerCase
    (some "\x7b'age': 25.7, 'sex': 'f', 'bmi': 24.0, 'children': '2x'\x7d,100".toList)
    [{ age := .fin 25
       sex := "f".toList
       bmi := .fin 24
       children := .fin 2
       smoker := "no".toList
       region := "southeast".toList
       predicted_charge := .fin 100 }]
    _ (by decide!) (List.mem_singleton.mpr rfl)⟩

/-- C10 as stated fails: the line `{'age': 'abc', 'sex': 'f', 'bmi': 24.0},100` yields a record
whose `age` is `NaN`, the line `age: 25, sex: f, bmi: 24`, whose last number is taken for
the charge, yields a record whose `bmi` is `NaN`, and a quoted `age` of one followed by 400
zeros yields a record whose `age` is `Infinity`. -/
theorem parsePredictionsFile_nan_fields :
    parsePredictionsFile asciiLowerCase
        (some "\x7b'age': 'abc', 'sex': 'f', 'bmi': 24.0\x7d,100".toList) =
      some
        [{ age := .nan
           sex := "f".toList
           bmi := .fin 24
           children := .fin 0
           smoker := "no".toList
           region := "southeast".toList
           predicted_charge := .fin 100 }] ∧
    parsePredictionsFile asciiLowerCase (some "age: 25, sex: f, bmi: 24".toList) =
      some
        [{ age := .fin 25
           sex := "f".toList
           bmi := .nan
           children := .fin 0
           smoker := "no".toList
           region := "southeast".toList
           predicted_charge := .fin 24 }] ∧
    parsePredictionsFile asciiLowerCase
        (some ("\x7b'age': '1".toList ++ List.replicate 400 '0' ++
          "', 'sex': 'f', 'bmi': 24.0\x7d,100".toList)) =
      some
        [{ age := .inf false
           sex := "f".toList
           bmi := .fin 24
           children := .fin 0
           smoker := "no".toList
           region := "southeast".toList
           predicted_charge := .fin 100 }] ∧
    JSNumber.nan.isInteger = false ∧ JSNumber.nan.isNaN = true ∧
    (JSNumber.inf false).isInteger = false ∧ (JSNumber.inf false).isNaN = false := by
  decide!

/-! ## Sources without a non-blank line -/

/-- C11 (the code differs): for the empty file and for a file of blank lines only, `lines` is
empty, `lines[0].includes` throws on `undefined`, and `parsePredictionsFile` returns `null`,
whereas a file holding only a comment line returns the empty list. -/
theorem parsePredictionsFile_blank_source_null :
    parsePredictionsFile asciiLowerCase (some "".toList) = none ∧
    parsePredictionsFile asciiLowerCase (some "\n  \n\t\r\n".toList) = none ∧
    parsePredictionsFile asciiLowerCase (some "# no data".toList) = some [] := by
  decide

/-! ## Order of the records -/

theorem filterMap_record_nonTrivialLines (lower : Str → Str) (fileContent : Str) :
    (nonTrivialLines fileContent).filterMap (fun l => (processLine lower l).record?) =
      (dataLines fileContent).filterMap (fun l => (processLine lower l).record?) := by
  unfold nonTrivialLines
  induction dataLines fileContent with
  | nil => rfl
  | cons l ls ih =>
    by_cases hc : startsWith (trim l) ['#'] = true
    · have h1 : (processLine lower l).record? = none := by
        rw [processLine_of_comment lower hc]; rfl
      rw [List.filter_cons_of_neg (by simp [hc]), List.filterMap_cons, ih]
      simp only [h1]
    · rw [List.filter_cons_of_pos (by simp [hc]), List.filterMap_cons, List.filterMap_cons, ih]

/-- C12: `parsePredictionsFile` returns a list exactly when the source has a non-blank line and
no line throws, and that list is the concatenation, in line order, of the records of the
non-trivial lines, none or one per line, nothing merged and nothing reordered. -/
theorem parsePredictionsFile_eq_records_in_order (lower : Str → Str) (fileContent : Str) :
    parsePredictionsFile lower (some fileContent) =
      if nonBlankLines fileContent ≠ [] ∧
          ∀ l ∈ dataLines fileContent, processLine lower l ≠ .thrown then
        some ((nonTrivialLines fileContent).filterMap
          (fun l => (processLine lower l).record?))
      else none := by
  by_cases hne : nonBlankLines fileContent = []
  · rw [parsePredictionsFile_eq_none_of_blank lower _ hne, if_neg (fun h => h.1 hne)]
  · rw [parsePredictionsFile_eq lower _ hne]
    by_cases hno : ∀ l ∈ dataLines fileContent, processLine lower l ≠ .thrown
    · rw [if_pos ⟨hne, hno⟩, processLines_eq_of_no_throw lower _ _ hno,
        filterMap_record_nonTrivialLines]
      simp
    · rw [if_neg (fun h => hno h.2)]
      push_neg at hno
      exact processLines_eq_none_of_throw lower _ _ hno

theorem parsePredictionsFile_eq_records_in_order_witness :
    parsePredictionsFile asciiLowerCase
        (some ("\x7b'age': 30, 'sex': 'm', 'bmi': 22.5\x7d,5000\n" ++
          "\x7b'age': 25, 'sex': 'f', 'bmi': 24.0\x7d,6170.00\n# note\n" ++
          "\x7b'age': 30, 'sex': 'm', 'bmi': 22.5\x7d,5000").toList) =
      some
        [{ age := .fin 30, sex := "m".toList, bmi := .fin (45 / 2), children := .fin 0,
           smoker := "no".toList, region := "southeast".toList, predicted_charge := .fin 5000 },
         { age := .fin 25, sex := "f".toList, bmi := .fin 24, children := .fin 0,
           smoker := "no".toList, region := "southeast".toList, predicted_charge := .fin 6170 },
         { age := .fin 30, sex := "m".toList, bmi := .fin (45 / 2), children := .fin 0,
           smoker := "no".toList, region := "southeast".toList,
           predicted_charge := .fin 5000 }] :=
  (parsePredictionsFile_eq_records_in_order asciiLowerCase _).trans (by decide!)

/-! ## Files as lists of lines -/

theorem split_joinLines {ls : List Str} (hnl : ∀ x ∈ ls, '\n' ∉ x) (hne : ls ≠ []) :
    split '\n' (joinLines ls) = ls := by
  induction ls with
  | nil => exact absurd rfl hne
  | cons l rest ih =>
    cases rest with
    | nil => exact split_of_not_mem (hnl l (by simp))
    | cons l' rest' =>
      have h1 : '\n' ∉ l := hnl l (by simp)
      have h2 : ∀ x ∈ l' :: rest', '\n' ∉ x := fun x hx => hnl x (List.mem_cons_of_mem _ hx)
      rw [joinLines, split_append_sep _ h1, ih h2 (by simp)]

theorem nonBlankLines_joinLines {ls : List Str} (hnl : ∀ x ∈ ls, '\n' ∉ x) :
    nonBlankLines (joinLines ls) = ls.filter (fun line => !(trim line).isEmpty) := by
  cases ls with
  | nil => decide
  | cons l rest => rw [nonBlankLines, split_joinLines hnl (by simp)]

theorem parsePredictionsFile_of_nonBlankLines (lower : Str → Str) {fileContent first : Str}
    {rest : List Str} (h : nonBlankLines fileContent = first :: rest) :
    parsePredictionsFile lower (some fileContent) =
      processLines lower (if isHeader first = true then rest else first :: rest) [] := by
  rw [parsePredictionsFile_eq lower _ (by rw [h]; simp), dataLines, h]

theorem parsePredictionsFile_congr (lower : Str → Str) {a b : Str}
    (h : nonBlankLines a = nonBlankLines b) :
    parsePredictionsFile lower (some a) = parsePredictionsFile lower (some b) := by
  simp only [parsePredictionsFile, h]

/-! ## Deleting skipped lines -/

/-- C13 (amended): deleting a line that is blank after trimming, or a line that starts with `#`
after trimming and is not the first non-blank line, leaves the result of
`parsePredictionsFile` unchanged; and when the first non-blank line contains `Input Values` or
`Predicted Charge`, the result is that of the loop over the lines after it. -/
theorem parsePredictionsFile_delete_skipped_line (lower : Str → Str) (pre post : List Str)
    (l : Str) (hnl : ∀ x ∈ pre ++ l :: post, '\n' ∉ x)
    (hl : (trim l).isEmpty = true ∨
      (startsWith (trim l) ['#'] = true ∧ ∃ x ∈ pre, (trim x).isEmpty = false)) :
    parsePredictionsFile lower (some (joinLines (pre ++ l :: post))) =
        parsePredictionsFile lower (some (joinLines (pre ++ post))) ∧
      ∀ (fileContent first : Str) (rest : List Str),
        nonBlankLines fileContent = first :: rest → isHeader first = true →
          parsePredictionsFile lower (some fileContent) = processLines lower rest [] := by
  have hnl' : ∀ x ∈ pre ++ post, '\n' ∉ x := by
    intro x hx
    apply hnl x
    rcases List.mem_append.mp hx with h | h
    · exact List.mem_append_left _ h
    · exact List.mem_append_right _ (List.mem_cons_of_mem _ h)
  refine ⟨?_, ?_⟩
  · rcases hl with hb | ⟨hc, x, hx, hxb⟩
    · apply parsePredictionsFile_congr
      rw [nonBlankLines_joinLines hnl, nonBlankLines_joinLines hnl']
      simp [List.filter_append, List.filter_cons, hb]
    · have hlb : (trim l).isEmpty = false := by
        cases ht : trim l with
        | nil => rw [ht] at hc; simp [startsWith, List.isPrefixOf] at hc
        | cons a t => rfl
      have hP : pre.filter (fun line => !(trim line).isEmpty) ≠ [] := by
        intro h
        have : x ∈ pre.filter (fun line => !(trim line).isEmpty) :=
          List.mem_filter.mpr ⟨hx, by simp [hxb]⟩
        rw [h] at this
        exact List.not_mem_nil _ this
      obtain ⟨first, r1, hfr⟩ := List.exists_cons_of_ne_nil hP
      have hN : nonBlankLines (joinLines (pre ++ l :: post)) =
          first :: (r1 ++ l :: post.filter (fun line => !(trim line).isEmpty)) := by
        rw [nonBlankLines_joinLines hnl]
        simp [List.filter_append, List.filter_cons, hlb, hfr]
      have hN' : nonBlankLines (joinLines (pre ++ post)) =
          first :: (r1 ++ post.filter (fun line => !(trim line).isEmpty)) := by
        rw [nonBlankLines_joinLines hnl']
        simp [List.filter_append, hfr]
      have h1 : (processLine lower l).record? = none := by
        rw [processLine_of_comment lower hc]; rfl
      have h2 : processLine lower l ≠ .thrown := by
        rw [processLine_of_comment lower hc]
        exact fun e => LineOutcome.noConfusion e
      rw [parsePredictionsFile_of_nonBlankLines lower hN,
        parsePredictionsFile_of_nonBlankLines lower hN']
      split_ifs
      · exact processLines_remove lower r1 _ [] h1 h2
      · exact processLines_remove lower (first :: r1) _ [] h1 h2
  · intro fileContent first rest hN hh
    rw [parsePredictionsFile_of_nonBlankLines lower hN, if_pos hh]

theorem parsePredictionsFile_delete_skipped_line_witness :
    parsePredictionsFile asciiLowerCase
        (some (joinLines (["\x7b'age': 25, 'sex': 'f', 'bmi': 24.0\x7d,100".toList] ++
          "# note".toList :: ["\x7b'age': 30, 'sex': 'm', 'bmi': 22.5\x7d,5000".toList]))) =
      parsePredictionsFile asciiLowerCase
        (some (joinLines (["\x7b'age': 25, 'sex': 'f', 'bmi': 24.0\x7d,100".toList] ++
          ["\x7b'age': 30, 'sex': 'm', 'bmi': 22.5\x7d,5000".toList]))) :=
  (parsePredictionsFile_delete_skipped_line asciiLowerCase
    ["\x7b'age': 25, 'sex': 'f', 'bmi': 24.0\x7d,100".toList]
    ["\x7b'age': 30, 'sex': 'm', 'bmi': 22.5\x7d,5000".toList] "# note".toList
    (by decide) (Or.inr ⟨by decide, _, List.mem_singleton.mpr rfl, by decide⟩)).1

/-- C13 as stated fails for a comment that is the first non-blank line: with it, the next line
`{'age': 25, 'sex': 'Input Values', 'bmi': 24.0},100` is read as data and yields a record;
once the comment is deleted that line is `lines[0]`, contains `Input Values`, is taken for
the header and yields nothing. -/
theorem parsePredictionsFile_delete_first_comment :
    joinLines ["# note".toList,
        "\x7b'age': 25, 'sex': 'Input Values', 'bmi': 24.0\x7d,100".toList] =
      "# note\n\x7b'age': 25, 'sex': 'Input Values', 'bmi': 24.0\x7d,100".toList ∧
    parsePredictionsFile asciiLowerCase
        (some "# note\n\x7b'age': 25, 'sex': 'Input Values', 'bmi': 24.0\x7d,100".toList) =
      some
        [{ age := .fin 25, sex := "input values".toList, bmi := .fin 24, children := .fin 0,
           smoker := "no".toList, region := "southeast".toList,
           predicted_charge := .fin 100 }] ∧
    parsePredictionsFile asciiLowerCase
        (some "\x7b'age': 25, 'sex': 'Input Values', 'bmi': 24.0\x7d,100".toList) =
      some [] := by
  decide

/-! ## Reordering the lines -/

theorem processLines_perm (lower : Str → Str) {ls ls' : List Str} (h : ls.Perm ls') :
    (processLines lower ls [] = none ∧ processLines lower ls' [] = none) ∨
      ∃ recs recs', processLines lower ls [] = some recs ∧
        processLines lower ls' [] = some recs' ∧ recs.Perm recs' := by
  by_cases ht : ∃ l ∈ ls, processLine lower l = .thrown
  · left
    refine ⟨processLines_eq_none_of_throw lower ls [] ht, ?_⟩
    obtain ⟨l, hl, hthrown⟩ := ht
    exact processLines_eq_none_of_throw lower ls' [] ⟨l, h.mem_iff.mp hl, hthrown⟩
  · right
    push_neg at ht
    have ht' : ∀ l ∈ ls', processLine lower l ≠ .thrown :=
      fun l hl => ht l (h.mem_iff.mpr hl)
    refine ⟨_, _, processLines_eq_of_no_throw lower ls [] ht,
      processLines_eq_of_no_throw lower ls' [] ht', ?_⟩
    simpa using h.filterMap (fun l => (processLine lower l).record?)

/-- C14 (amended): for a permutation of the lines of a source that keeps the first non-blank
line in place, or for any permutation when no line contains `Input Values` or
`Predicted Charge`, either both sources make `parsePredictionsFile` return `null`, or both
return a list and the two lists hold the same records with the same multiplicities, hence the
same number of records. -/
theorem parsePredictionsFile_perm (lower : Str → Str) (ls ls' : List Str)
    (hnl : ∀ x ∈ ls, '\n' ∉ x) (hperm : ls.Perm ls')
    (hfirst : (nonBlankLines (joinLines ls)).head? = (nonBlankLines (joinLines ls')).head? ∨
      ∀ x ∈ ls, isHeader x = false) :
    (parsePredictionsFile lower (some (joinLines ls)) = none ∧
        parsePredictionsFile lower (some (joinLines ls')) = none) ∨
      ∃ recs recs', parsePredictionsFile lower (some (joinLines ls)) = some recs ∧
        parsePredictionsFile lower (some (joinLines ls')) = some recs' ∧
        recs.Perm recs' ∧ recs.length = recs'.length := by
  have hnl' : ∀ x ∈ ls', '\n' ∉ x := fun x hx => hnl x (hperm.mem_iff.mpr hx)
  have hN : (nonBlankLines (joinLines ls)).Perm (nonBlankLines (joinLines ls')) := by
    rw [nonBlankLines_joinLines hnl, nonBlankLines_joinLines hnl']
    exact hperm.filter _
  have hsub : ∀ x ∈ nonBlankLines (joinLines ls), x ∈ ls := by
    intro x hx
    rw [nonBlankLines_joinLines hnl] at hx
    exact (List.mem_filter.mp hx).1
  cases h1 : nonBlankLines (joinLines ls) with
  | nil =>
    rw [h1] at hN
    have h2 : nonBlankLines (joinLines ls') = [] := hN.symm.eq_nil
    exact Or.inl ⟨parsePredictionsFile_eq_none_of_blank lower _ h1,
      parsePredictionsFile_eq_none_of_blank lower _ h2⟩
  | cons f r =>
    cases h2 : nonBlankLines (joinLines ls') with
    | nil =>
      rw [h1, h2] at hN
      exact absurd hN.eq_nil (by simp)
    | cons f' r' =>
      have hD : (if isHeader f = true then r else f :: r).Perm
          (if isHeader f' = true then r' else f' :: r') := by
        rw [h1, h2] at hN
        rcases hfirst with he | hh
        · rw [h1, h2] at he
          simp only [List.head?_cons, Option.some.injEq] at he
          subst he
          split_ifs
          · exact hN.cons_inv
          · exact hN
        · have hf : isHeader f = false := hh f (hsub f (by rw [h1]; simp))
          have hf' : isHeader f' = false := by
            apply hh f'
            apply hsub
            rw [h1]
            exact hN.mem_iff.mpr (by simp)
          simpa [hf, hf'] using hN
      rw [parsePredictionsFile_of_nonBlankLines lower h1,
        parsePredictionsFile_of_nonBlankLines lower h2]
      rcases processLines_perm lower hD with h | ⟨recs, recs', ha, hb, hp⟩
      · exact Or.inl h
      · exact Or.inr ⟨recs, recs', ha, hb, hp, hp.length_eq⟩

theorem parsePredictionsFile_perm_witness :
    (parsePredictionsFile asciiLowerCase
          (some (joinLines ["Input Values,Predicted Charge".toList,
            "\x7b'age': 25, 'sex': 'f', 'bmi': 24.0\x7d,100".toList, "garbage".toList,
            "\x7b'age': 30, 'sex': 'm', 'bmi': 22.5\x7d,5000".toList])) = none ∧
        parsePredictionsFile asciiLowerCase
          (some (joinLines ["Input Values,Predicted Charge".toList,
            "\x7b'age': 30, 'sex': 'm', 'bmi': 22.5\x7d,5000".toList, "garbage".toList,
            "\x7b'age': 25, 'sex': 'f', 'bmi': 24.0\x7d,100".toList])) = none) ∨
      ∃ recs recs',
        parsePredictionsFile asciiLowerCase
          (some (joinLines ["Input Values,Predicted Charge".toList,
            "\x7b'age': 25, 'sex': 'f', 'bmi': 24.0\x7d,100".toList, "garbage".toList,
            "\x7b'age': 30, 'sex': 'm', 'bmi': 22.5\x7d,5000".toList])) = some recs ∧
        parsePredictionsFile asciiLowerCase
          (some (joinLines ["Input Values,Predicted Charge".toList,
            "\x7b'age': 30, 'sex': 'm', 'bmi': 22.5\x7d,5000".toList, "garbage".toList,
            "\x7b'age': 25, 'sex': 'f', 'bmi': 24.0\x7d,100".toList])) = some recs' ∧
        recs.Perm recs' ∧ recs.length = recs'.length :=
  parsePredictionsFile_perm asciiLowerCase _ _ (by decide)
    (List.Perm.cons _ ((List.Perm.swap _ _ _).trans
      (List.Perm.cons _ (List.Perm.swap _ _ _) |>.trans (List.Perm.swap _ _ _))))
    (Or.inl (by decide))

/-- C14 as stated fails when the reordering changes which line is `lines[0]`: in the order
given, both lines are read as data and two records are returned; with the two lines swapped,
the line whose `sex` is `Input Values` comes first, is taken for the header, and one record
is returned. -/
theorem parsePredictionsFile_swap_changes_count :
    parsePredictionsFile asciiLowerCase
        (some (joinLines ["\x7b'age': 25, 'sex': 'f', 'bmi': 24.0\x7d,100".toList,
          "\x7b'age': 30, 'sex': 'Input Values', 'bmi': 22.5\x7d,5000".toList])) =
      some
        [{ age := .fin 25, sex := "f".toList, bmi := .fin 24, children := .fin 0,
           smoker := "no".toList, region := "southeast".toList,
           predicted_charge := .fin 100 },
         { age := .fin 30, sex := "input values".toList, bmi := .fin (45 / 2),
           children := .fin 0, smoker := "no".toList, region := "southeast".toList,
           predicted_charge := .fin 5000 }] ∧
    parsePredictionsFile asciiLowerCase
        (some (joinLines ["\x7b'age': 30, 'sex': 'Input Values', 'bmi': 22.5\x7d,5000".toList,
          "\x7b'age': 25, 'sex': 'f', 'bmi': 24.0\x7d,100".toList])) =
      some
        [{ age := .fin 25, sex := "f".toList, bmi := .fin 24, children := .fin 0,
           smoker := "no".toList, region := "southeast".toList,
           predicted_charge := .fin 100 }] := by
  decide!

/-! ## Lowercase fields and defaults -/

theorem toLower_toLower (c : Char) : c.toLower.toLower = c.toLower := by
  by_cases h : c.toNat ≥ 65 ∧ c.toNat ≤ 90
  · have : ∃ n, n ≥ 65 ∧ n ≤ 90 ∧ c = Char.ofNat n :=
      ⟨c.toNat, h.1, h.2, by simp [Char.ofNat_toNat]⟩
    obtain ⟨n, h1, h2, rfl⟩ := this
    interval_cases n <;> decide
  · have e : c.toLower = c := by
      unfold Char.toLower
      simp only [if_neg h]
    rw [e, e]

theorem asciiLowerCase_idem (s : Str) : asciiLowerCase (asciiLowerCase s) = asciiLowerCase s := by
  unfold asciiLowerCase
  rw [List.map_map]
  apply List.map_congr_left
  intro c _
  exact toLower_toLower c

theorem lowerOrDefault_lower {lower : Str → Str} (hidem : ∀ s, lower (lower s) = lower s)
    {v : Option JSValue} {dflt s : Str} (hd : lower dflt = dflt)
    (h : lowerOrDefault lower v dflt = some s) : lower s = s := by
  unfold lowerOrDefault at h
  cases v with
  | none =>
    simp only [Option.some.injEq] at h
    rw [← h, hd]
  | some x =>
    simp only at h
    split_ifs at h
    · cases x with
      | str t =>
        simp only [toLowerCaseValue, Option.some.injEq] at h
        rw [← h, hidem]
      | num n => exact Option.noConfusion h
    · simp only [Option.some.injEq] at h
      rw [← h, hd]

/-- C15: when `toLowerCase` is idempotent and leaves `no` and `southeast` unchanged, every
record of the list returned has `sex`, `smoker` and `region` equal to their own lowercasing;
and a record pushed for a line whose mapping has no `smoker` (no `region`) carries `no`
(`southeast`). -/
theorem parsePredictionsFile_lowercase_fields (lower : Str → Str)
    (hidem : ∀ s, lower (lower s) = lower s)
    (hno : lower "no".toList = "no".toList)
    (hse : lower "southeast".toList = "southeast".toList)
    (file : Option Str) (recs : List PredictionRecord) (r : PredictionRecord)
    (h : parsePredictionsFile lower file = some recs) (hr : r ∈ recs) :
    (lower r.sex = r.sex ∧ lower r.smoker = r.smoker ∧ lower r.region = r.region) ∧
      ∀ (l seg : Str) (charge : JSNumber) (r' : PredictionRecord),
        processLine lower l = .pushed r' → splitCharge (trim l) = some (seg, charge) →
          ((parseInputDict seg).get "smoker".toList = none → r'.smoker = "no".toList) ∧
          ((parseInputDict seg).get "region".toList = none →
            r'.region = "southeast".toList) := by
  refine ⟨?_, ?_⟩
  · obtain ⟨l, hl⟩ := mem_of_parsePredictionsFile lower h hr
    obtain ⟨seg, charge, _, _, ha⟩ := processLine_pushed_inv hl
    obtain ⟨age, sex, bmi, _, _, _, _, _, _, hsex, _, _, hsm, hrg, _⟩ := assemble_pushed_inv ha
    refine ⟨?_, lowerOrDefault_lower hidem hno hsm, lowerOrDefault_lower hidem hse hrg⟩
    cases sex with
    | str t =>
      simp only [toLowerCaseValue, Option.some.injEq] at hsex
      rw [← hsex, hidem]
    | num n => exact Option.noConfusion hsex
  · intro l seg charge r' hl hs
    obtain ⟨seg', charge', hs', _, ha⟩ := processLine_pushed_inv hl
    rw [hs] at hs'
    simp only [Option.some.injEq, Prod.mk.injEq] at hs'
    obtain ⟨rfl, rfl⟩ := hs'
    obtain ⟨age, sex, bmi, _, _, _, _, _, _, _, _, _, hsm, hrg, _⟩ := assemble_pushed_inv ha
    constructor
    · intro hnone
      rw [hnone] at hsm
      simp only [lowerOrDefault, Option.some.injEq] at hsm
      exact hsm.symm
    · intro hnone
      rw [hnone] at hrg
      simp only [lowerOrDefault, Option.some.injEq] at hrg
      exact hrg.symm

theorem parsePredictionsFile_lowercase_fields_witness :
    parsePredictionsFile asciiLowerCase
        (some "\x7b'age': 25, 'sex': 'Female', 'bmi': 24.0, 'region': 'NorthWest'\x7d,100".toList) =
      some
        [{ age := .fin 25, sex := "female".toList, bmi := .fin 24, children := .fin 0,
           smoker := "no".toList, region := "northwest".toList,
           predicted_charge := .fin 100 }] ∧
    asciiLowerCase "female".toList = "female".toList ∧
    asciiLowerCase "no".toList = "no".toList ∧
    asciiLowerCase "northwest".toList = "northwest".toList :=
  ⟨by decide,
   (parsePredictionsFile_lowercase_fields asciiLowerCase asciiLowerCase_idem (by decide)
    (by decide)
    (some "\x7b'age': 25, 'sex': 'Female', 'bmi': 24.0, 'region': 'NorthWest'\x7d,100".toList)
    [{ age := .fin 25, sex := "female".toList, bmi := .fin 24, children := .fin 0,
       smoker := "no".toList, region := "northwest".toList, predicted_charge := .fin 100 }]
    _ (by decide) (List.mem_singleton.mpr rfl)).1⟩

/-! ## Duplicate keys -/

theorem parsePair_eq (obj : JSObject) (pair : Str) :
    parsePair obj pair =
      match pairKeyValue pair with
      | none => obj
      | some kv => obj.set kv.1 kv.2 := by
  unfold parsePair pairKeyValue
  cases indexOf ':' pair <;> rfl

theorem get_set_of_ne_proto (obj : JSObject) (k key : Str) (v : JSValue)
    (hproto : key ≠ "__proto__".toList) :
    (obj.set k v).get key = if k = key then some v else obj.get key := by
  unfold JSObject.set
  by_cases hk : k = "__proto__".toList
  · have hne : ¬ k = key := by rw [hk]; exact fun e => hproto e.symm
    rw [if_pos hk, if_neg hne]
  · rw [if_neg hk]
    rfl

theorem get_foldl_parsePair (key : Str) (hproto : key ≠ "__proto__".toList)
    (pairs : List Str) (obj : JSObject) :
    (pairs.foldl parsePair obj).get key =
      match lastWrite key pairs with
      | some v => some v
      | none => obj.get key := by
  induction pairs generalizing obj with
  | nil => rfl
  | cons p ps ih =>
    rw [List.foldl_cons, ih, lastWrite]
    cases hl : lastWrite key ps with
    | some v => rfl
    | none =>
      simp only
      rw [parsePair_eq]
      cases hp : pairKeyValue p with
      | none => rfl
      | some kv =>
        obtain ⟨k, v⟩ := kv
        simp only
        rw [get_set_of_ne_proto _ _ _ _ hproto]
        split_ifs <;> rfl

theorem foldl_parsePair_filter (pairs : List Str) (obj : JSObject) :
    pairs.foldl parsePair obj =
      (pairs.filter (fun p => (indexOf ':' p).isSome)).foldl parsePair obj := by
  induction pairs generalizing obj with
  | nil => rfl
  | cons p ps ih =>
    cases hp : indexOf ':' p with
    | none =>
      have h1 : parsePair obj p = obj := by unfold parsePair; rw [hp]
      rw [List.foldl_cons, h1, List.filter_cons_of_neg (by simp [hp]), ih]
    | some i =>
      rw [List.foldl_cons, List.filter_cons_of_pos (by simp [hp]), List.foldl_cons, ih]

/-- C16 (amended): for every key other than `__proto__`, `parseInputDict` maps the key to the
stored value of its last pair in left-to-right order (to nothing when no pair has that key),
and the object built is the one built from the pairs that have a colon alone. -/
theorem parseInputDict_last_write_wins (dictString key : Str)
    (hproto : key ≠ "__proto__".toList) :
    (parseInputDict dictString).get key = lastWrite key (pairsOf dictString) ∧
      parseInputDict dictString =
        ((pairsOf dictString).filter (fun p => (indexOf ':' p).isSome)).foldl parsePair [] := by
  have hdef : parseInputDict dictString = (pairsOf dictString).foldl parsePair [] := rfl
  refine ⟨?_, ?_⟩
  · rw [hdef, get_foldl_parsePair key hproto]
    cases lastWrite key (pairsOf dictString) <;> rfl
  · rw [hdef]
    exact foldl_parsePair_filter _ _

theorem parseInputDict_last_write_wins_witness :
    pairsOf "\x7b'age': 25, junk, 'age': 30, 'sex': 'f'\x7d".toList =
      ["'age': 25".toList, "junk".toList, "'age': 30".toList, "'sex': 'f'".toList] ∧
    lastWrite "age".toList (pairsOf "\x7b'age': 25, junk, 'age': 30, 'sex': 'f'\x7d".toList) =
      some (.num (.fin 30)) ∧
    ((parseInputDict "\x7b'age': 25, junk, 'age': 30, 'sex': 'f'\x7d".toList).get "age".toList =
        lastWrite "age".toList
          (pairsOf "\x7b'age': 25, junk, 'age': 30, 'sex': 'f'\x7d".toList) ∧
      parseInputDict "\x7b'age': 25, junk, 'age': 30, 'sex': 'f'\x7d".toList =
        ((pairsOf "\x7b'age': 25, junk, 'age': 30, 'sex': 'f'\x7d".toList).filter
          (fun p => (indexOf ':' p).isSome)).foldl parsePair []) :=
  ⟨by decide, by decide,
   parseInputDict_last_write_wins "\x7b'age': 25, junk, 'age': 30, 'sex': 'f'\x7d".toList
    "age".toList (by decide)⟩

/-- C16 as stated fails for the key `__proto__`: in `__proto__: 1, __proto__: 2` the key occurs
twice and its last value is the number `2`, but both writes go to the inherited setter, which
ignores numbers, and the object returned has no property at all. -/
theorem parseInputDict_proto_last_write :
    lastWrite "__proto__".toList (pairsOf "__proto__: 1, __proto__: 2".toList) =
      some (.num (.fin 2)) ∧
    parseInputDict "__proto__: 1, __proto__: 2".toList = [] ∧
    (parseInputDict "__proto__: 1, __proto__: 2".toList).get "__proto__".toList = none := by
  decide

/-! ## Unquoted values -/

theorem isDecimalLiteral_of_isNumeral {ip : Str} {fp : Option Str} (h : IsNumeral ip fp) :
    IsDecimalLiteral ip fp :=
  ⟨h.2.1, h.2.2, Or.inl h.1⟩

theorem mem_decimalLiteral {ip : Str} {fp : Option Str} (h : IsDecimalLiteral ip fp)
    {c : Char} (hc : c ∈ numeral ip fp) : isDigit c = true ∨ c = '.' := by
  obtain ⟨hip, hfp, _⟩ := h
  cases fp with
  | none => exact Or.inl (hip c hc)
  | some f =>
    simp only [numeral, List.mem_append, List.mem_cons] at hc
    rcases hc with h1 | h2 | h3
    · exact Or.inl (hip c h1)
    · exact Or.inr h2
    · exact Or.inl (hfp f rfl c h3)

theorem decimalLiteral_ne_nil {ip : Str} {fp : Option Str} (h : IsDecimalLiteral ip fp) :
    numeral ip fp ≠ [] := by
  obtain ⟨_, _, h3⟩ := h
  cases fp with
  | none =>
    rcases h3 with h3 | h3
    · exact h3
    · exact absurd rfl h3
  | some f => simp [numeral]

theorem isWhiteSpace_eq_false_of_decimalChar {c : Char}
    (h : isDigit c = true ∨ c = '+' ∨ c = '-' ∨ c = '.') : isWhiteSpace c = false := by
  rcases h with h | rfl | rfl | rfl
  · exact isWhiteSpace_eq_false_of_isDigit h
  · decide
  · decide
  · decide

theorem mem_signed_decimalLiteral (sg : Option Bool) {ip : Str} {fp : Option Str}
    (h : IsDecimalLiteral ip fp) {c : Char} (hc : c ∈ signText sg ++ numeral ip fp) :
    isDigit c = true ∨ c = '+' ∨ c = '-' ∨ c = '.' := by
  rcases List.mem_append.mp hc with h1 | h2
  · rcases sg with _ | b
    · simp [signText] at h1
    · cases b
      · simp only [signText, List.mem_singleton] at h1
        exact Or.inr (Or.inl h1)
      · simp only [signText, List.mem_singleton] at h1
        exact Or.inr (Or.inr (Or.inl h1))
  · rcases mem_decimalLiteral h h2 with h3 | h3
    · exact Or.inl h3
    · exact Or.inr (Or.inr (Or.inr h3))

theorem trim_eq_self_of_decimalChars {v : Str}
    (h : ∀ c ∈ v, isDigit c = true ∨ c = '+' ∨ c = '-' ∨ c = '.') : trim v = v :=
  trim_eq_self
    (fun c hc => isWhiteSpace_eq_false_of_decimalChar (h c (List.mem_of_mem_head? hc)))
    (fun c hc => isWhiteSpace_eq_false_of_decimalChar (h c (List.mem_of_getLast?_eq_some hc)))

theorem readSign_signText_append (sg : Option Bool) {c : Char} (t : Str)
    (h1 : c ≠ '-') (h2 : c ≠ '+') :
    readSign (signText sg ++ c :: t) = (signNeg sg, c :: t) := by
  rcases sg with _ | b
  · show readSign (c :: t) = _
    unfold readSign
    split
    · rename_i heq; simp at heq; exact absurd heq.1 h1
    · rename_i heq; simp at heq; exact absurd heq.1 h2
    · rfl
  · cases b <;> rfl

theorem readDecimalDigits_decimalLiteral {ip : Str} {fp : Option Str}
    (h : IsDecimalLiteral ip fp) :
    readDecimalDigits (numeral ip fp) = (ip, fp.getD [], []) := by
  obtain ⟨hip, hfp, _⟩ := h
  cases fp with
  | none =>
    simp [readDecimalDigits, numeral, takeWhile_isDigit_eq_self hip,
      dropWhile_isDigit_eq_nil hip]
  | some f =>
    have hf : AllDigits f := hfp f rfl
    have hdot : isDigit '.' = false := by decide
    simp only [readDecimalDigits, numeral, Option.getD_some]
    rw [List.takeWhile_append_of_pos hip, List.dropWhile_append_of_pos hip]
    simp [List.takeWhile, List.dropWhile, hdot, takeWhile_isDigit_eq_self hf,
      dropWhile_isDigit_eq_nil hf]

theorem signed_decimalLiteral_facts (sg : Option Bool) {ip : Str} {fp : Option Str}
    (h : IsDecimalLiteral ip fp) :
    trim (signText sg ++ numeral ip fp) = signText sg ++ numeral ip fp ∧
      parseFloat (signText sg ++ numeral ip fp) =
        toDouble (signed (signNeg sg) (numeralValue ip fp)) ∧
      isStrDecimalLiteral (signText sg ++ numeral ip fp) = true := by
  have hd := readDecimalDigits_decimalLiteral h
  have halpha := fun c hc => mem_signed_decimalLiteral sg h (c := c) hc
  obtain ⟨c, t, ht⟩ := List.exists_cons_of_ne_nil (decimalLiteral_ne_nil h)
  have hc : isDigit c = true ∨ c = '.' := mem_decimalLiteral h (by rw [ht]; simp)
  have hc1 : c ≠ '-' := by rcases hc with h | rfl; exact isDigit_ne_of_not_digit h (by decide); decide
  have hc2 : c ≠ '+' := by rcases hc with h | rfl; exact isDigit_ne_of_not_digit h (by decide); decide
  have hI : c ≠ 'I' := by rcases hc with h | rfl; exact isDigit_ne_of_not_digit h (by decide); decide
  have hsign : readSign (signText sg ++ numeral ip fp) = (signNeg sg, numeral ip fp) := by
    rw [ht]; exact readSign_signText_append sg t hc1 hc2
  have hnonempty : ¬ (ip = [] ∧ fp.getD [] = []) := by
    rintro ⟨h1, h2⟩
    rcases h.2.2 with h3 | h3
    · exact h3 h1
    · exact h3 h2
  refine ⟨trim_eq_self_of_decimalChars halpha, ?_, ?_⟩
  · have hdrop : (signText sg ++ numeral ip fp).dropWhile isWhiteSpace =
        signText sg ++ numeral ip fp :=
      dropWhile_eq_self_of_head (fun c hc =>
        isWhiteSpace_eq_false_of_decimalChar (halpha c (List.mem_of_mem_head? hc)))
    have hinf : startsWith (numeral ip fp) "Infinity".toList = false := by
      rw [ht]; simp [startsWith, String.toList, List.isPrefixOf, hI.symm]
    unfold parseFloat
    rw [hdrop, hsign]
    simp only [hinf, Bool.false_eq_true, if_false, hd]
    rw [if_neg hnonempty]
    simp only [readExponent, zero_sub]
    rw [decimal_neg]
    congr 2
    cases fp with
    | none => simp [numeralValue]
    | some f =>
      simp only [Option.getD_some, numeralValue, natOfDigits_append]
      push_cast
      field_simp
  · have hinf : ¬ (numeral ip fp = "Infinity".toList) := by
      rw [ht]; simp [String.toList, hI]
    unfold isStrDecimalLiteral
    rw [hsign]
    simp only [hinf, if_false, hd]
    rw [if_neg hnonempty]

theorem readSign_decomp (t : Str) : ∃ sg, t = signText sg ++ (readSign t).2 := by
  unfold readSign
  split
  · exact ⟨some true, rfl⟩
  · exact ⟨some false, rfl⟩
  · exact ⟨none, rfl⟩

theorem readDecimalDigits_decomp (u : Str) :
    ∃ fp : Option Str, u = numeral (readDecimalDigits u).1 fp ++ (readDecimalDigits u).2.2 ∧
      fp.getD [] = (readDecimalDigits u).2.1 ∧ AllDigits (readDecimalDigits u).1 ∧
      ∀ f ∈ fp, AllDigits f := by
  have htake : ∀ s : Str, AllDigits (s.takeWhile isDigit) :=
    fun s c hc => (List.mem_takeWhile_imp hc)
  unfold readDecimalDigits
  simp only
  split
  · rename_i r heq
    refine ⟨some (r.takeWhile isDigit), ?_, rfl, htake u, ?_⟩
    · simp only [numeral]
      conv_lhs => rw [← List.takeWhile_append_dropWhile isDigit u, heq,
        ← List.takeWhile_append_dropWhile isDigit r]
      simp
    · intro f hf
      cases hf
      exact htake r
  · refine ⟨none, ?_, rfl, htake u, ?_⟩
    · simp only [numeral]
      exact (List.takeWhile_append_dropWhile isDigit u).symm
    · intro f hf
      exact Option.noConfusion hf

theorem decimalLiteral_of_isStrDecimalLiteral {t : Str}
    (halpha : ∀ c ∈ t, isDigit c = true ∨ c = '+' ∨ c = '-' ∨ c = '.')
    (h : isStrDecimalLiteral t = true) :
    ∃ sg ip fp, IsDecimalLiteral ip fp ∧ t = signText sg ++ numeral ip fp := by
  obtain ⟨sg, hsg⟩ := readSign_decomp t
  have hu : ∀ c ∈ (readSign t).2, isDigit c = true ∨ c = '+' ∨ c = '-' ∨ c = '.' :=
    fun c hc => halpha c (by rw [hsg]; exact List.mem_append_right _ hc)
  unfold isStrDecimalLiteral at h
  simp only at h
  generalize (readSign t).2 = u at hsg hu h
  obtain ⟨fp, hdec, hfp, hip, hfpd⟩ := readDecimalDigits_decomp u
  split_ifs at h with hinf hemp
  · exfalso
    have := hu 'I' (by rw [hinf]; simp [String.toList])
    revert this
    decide
  · have hrest : (readDecimalDigits u).2.2 = [] := by
      cases hr : (readDecimalDigits u).2.2 with
      | nil => rfl
      | cons c r =>
        exfalso
        rw [hr] at h
        simp only [Bool.and_eq_true, Bool.or_eq_true, beq_iff_eq] at h
        have hc : c ∈ u := by
          rw [hdec, hr]; simp
        have := hu c hc
        rcases h.1 with rfl | rfl <;> revert this <;> decide
    rw [hrest, List.append_nil] at hdec
    refine ⟨sg, (readDecimalDigits u).1, fp, ⟨hip, hfpd, ?_⟩, by rw [hsg, ← hdec]⟩
    rw [hfp]
    by_contra hcon
    push_neg at hcon
    exact hemp hcon

theorem isNonDecimalIntegerLiteral_of_decimalChars {t : Str}
    (halpha : ∀ c ∈ t, isDigit c = true ∨ c = '+' ∨ c = '-' ∨ c = '.') :
    isNonDecimalIntegerLiteral t = false := by
  unfold isNonDecimalIntegerLiteral
  split
  · rename_i x ds
    have hx := halpha x (by simp)
    have h1 : (x == 'x' || x == 'X') = false ∧ (x == 'o' || x == 'O') = false ∧
        (x == 'b' || x == 'B') = false := by
      rcases hx with h | rfl | rfl | rfl
      · have := fun d hd => isDigit_ne_of_not_digit (d := d) h hd
        simp [this 'x' (by decide), this 'X' (by decide), this 'o' (by decide),
          this 'O' (by decide), this 'b' (by decide), this 'B' (by decide)]
      · decide
      · decide
      · decide
    simp [h1.1, h1.2.1, h1.2.2]
  · rfl

theorem readSign_snd_signText_append (sg : Option Bool) {c : Char} (t : Str)
    (h1 : c ≠ '-') (h2 : c ≠ '+') :
    (readSign (signText sg ++ c :: t)).2 = c :: t := by
  rw [readSign_signText_append sg t h1 h2]

theorem readDecimalDigits_append {ip : Str} {fp : Option Str} (h : IsDecimalLiteral ip fp)
    {e : Str} (he : ∀ c ∈ e.head?, isDigit c = false ∧ c ≠ '.') :
    readDecimalDigits (numeral ip fp ++ e) = (ip, fp.getD [], e) := by
  obtain ⟨hip, hfp, _⟩ := h
  have htake : e.takeWhile isDigit = [] := by
    cases e with
    | nil => rfl
    | cons c r => simp [List.takeWhile, (he c (by simp)).1]
  have hdrop : e.dropWhile isDigit = e := by
    cases e with
    | nil => rfl
    | cons c r => simp [List.dropWhile, (he c (by simp)).1]
  cases fp with
  | none =>
    simp only [readDecimalDigits, numeral, Option.getD_none]
    rw [List.takeWhile_append_of_pos hip, List.dropWhile_append_of_pos hip, htake, hdrop,
      List.append_nil]
    split
    · exact absurd rfl (he '.' (by simp)).2
    · rfl
  | some f =>
    have hf : AllDigits f := hfp f rfl
    have hdot : isDigit '.' = false := by decide
    simp only [readDecimalDigits, numeral, Option.getD_some, List.append_assoc,
      List.cons_append]
    rw [List.takeWhile_append_of_pos hip, List.dropWhile_append_of_pos hip]
    simp only [List.takeWhile, List.dropWhile, hdot, List.append_nil]
    rw [List.takeWhile_append_of_pos hf, List.dropWhile_append_of_pos hf, htake, hdrop,
      List.append_nil]

theorem isStrDecimalLiteral_iff (t : Str) :
    isStrDecimalLiteral t = true ↔
      (∃ sg : Option Bool, t = signText sg ++ "Infinity".toList) ∨
      ∃ (sg : Option Bool) (ip : Str) (fp : Option Str) (e : Str),
        IsDecimalLiteral ip fp ∧ IsExponentPart e ∧
          t = signText sg ++ (numeral ip fp ++ e) := by
  constructor
  · intro h
    obtain ⟨sg, hsg⟩ := readSign_decomp t
    unfold isStrDecimalLiteral at h
    simp only at h
    generalize (readSign t).2 = u at hsg h
    obtain ⟨fp, hdec, hfp, hip, hfpd⟩ := readDecimalDigits_decomp u
    split_ifs at h with hinf hemp
    · exact Or.inl ⟨sg, by rw [hsg, hinf]⟩
    · have hlit : IsDecimalLiteral (readDecimalDigits u).1 fp := by
        refine ⟨hip, hfpd, ?_⟩
        rw [hfp]
        by_contra hcon
        push_neg at hcon
        exact hemp hcon
      refine Or.inr ⟨sg, (readDecimalDigits u).1, fp, (readDecimalDigits u).2.2, hlit, ?_,
        by rw [hsg, ← hdec]⟩
      cases hr : (readDecimalDigits u).2.2 with
      | nil => exact Or.inl rfl
      | cons c r =>
        rw [hr] at h
        simp only [Bool.and_eq_true, Bool.or_eq_true, beq_iff_eq, Bool.not_eq_true',
          List.isEmpty_eq_false, List.all_eq_true] at h
        obtain ⟨sg', hsg'⟩ := readSign_decomp r
        refine Or.inr ⟨c, sg', (readSign r).2, h.1, ?_, h.2.2, by rw [← hsg']⟩
        intro hnil
        have := h.2.1
        rw [hnil] at this
        simp at this
  · rintro (⟨sg, rfl⟩ | ⟨sg, ip, fp, e, hlit, he, rfl⟩)
    · rcases sg with _ | b
      · decide
      · cases b <;> decide
    · obtain ⟨c, t, ht⟩ := List.exists_cons_of_ne_nil (decimalLiteral_ne_nil hlit)
      have hc : isDigit c = true ∨ c = '.' := mem_decimalLiteral hlit (by rw [ht]; simp)
      have hc1 : c ≠ '-' := by
        rcases hc with h | rfl
        · exact isDigit_ne_of_not_digit h (by decide)
        · decide
      have hc2 : c ≠ '+' := by
        rcases hc with h | rfl
        · exact isDigit_ne_of_not_digit h (by decide)
        · decide
      have hI : c ≠ 'I' := by
        rcases hc with h | rfl
        · exact isDigit_ne_of_not_digit h (by decide)
        · decide
      have hsign : (readSign (signText sg ++ (numeral ip fp ++ e))).2 = numeral ip fp ++ e := by
        rw [ht, List.cons_append]
        exact readSign_snd_signText_append sg _ hc1 hc2
      have hinf : ¬ (numeral ip fp ++ e = "Infinity".toList) := by
        rw [ht]; simp [String.toList, hI]
      have hnonempty : ¬ (ip = [] ∧ fp.getD [] = []) := by
        rintro ⟨h1, h2⟩
        rcases hlit.2.2 with h3 | h3
        · exact h3 h1
        · exact h3 h2
      have hehead : ∀ c ∈ e.head?, isDigit c = false ∧ c ≠ '.' := by
        rcases he with rfl | ⟨c, sg', ds, hc, _, _, rfl⟩
        · intro c hc; simp at hc
        · intro d hd
          simp only [List.head?_cons, Option.mem_def, Option.some.injEq] at hd
          subst hd
          rcases hc with rfl | rfl <;> decide
      unfold isStrDecimalLiteral
      simp only [hsign, hinf, if_false, readDecimalDigits_append hlit hehead]
      rw [if_neg hnonempty]
      rcases he with rfl | ⟨c, sg', ds, hc, hds, hall, rfl⟩
      · rfl
      · obtain ⟨d, ds', rfl⟩ := List.exists_cons_of_ne_nil hds
        have hd : isDigit d = true := hall d (by simp)
        have hs : (readSign (signText sg' ++ d :: ds')).2 = d :: ds' :=
          readSign_snd_signText_append sg' _ (isDigit_ne_of_not_digit hd (by decide))
            (isDigit_ne_of_not_digit hd (by decide))
        simp only [hs, Bool.and_eq_true, Bool.or_eq_true, beq_iff_eq, Bool.not_eq_true',
          List.isEmpty_cons, List.all_eq_true, true_and]
        exact ⟨hc, hall⟩

theorem isNonDecimalIntegerLiteral_iff (t : Str) :
    isNonDecimalIntegerLiteral t = true ↔
      ∃ (x : Char) (ds : Str), t = '0' :: x :: ds ∧ ds ≠ [] ∧
        (((x = 'x' ∨ x = 'X') ∧ ∀ c ∈ ds, isHexDigit c = true) ∨
         ((x = 'o' ∨ x = 'O') ∧ ∀ c ∈ ds, 48 ≤ c.toNat ∧ c.toNat ≤ 55) ∨
         ((x = 'b' ∨ x = 'B') ∧ ∀ c ∈ ds, c = '0' ∨ c = '1')) := by
  unfold isNonDecimalIntegerLiteral
  split
  · rename_i x ds
    simp only [Bool.and_eq_true, Bool.or_eq_true, beq_iff_eq, Bool.not_eq_true',
      List.isEmpty_eq_false, List.all_eq_true, decide_eq_true_eq, List.cons.injEq, true_and]
    constructor
    · rintro ⟨h1, h2⟩
      exact ⟨x, ds, ⟨rfl, rfl⟩, h1, or_assoc.mp h2⟩
    · rintro ⟨x', ds', ⟨rfl, rfl⟩, h1, h2⟩
      exact ⟨h1, or_assoc.mpr h2⟩
  · rename_i hno
    constructor
    · intro h; exact absurd h (by simp)
    · rintro ⟨x, ds, rfl, _⟩
      exact absurd rfl (hno x ds)

theorem isNaNString_eq_false_iff (s : Str) :
    isNaNString s = false ↔ trim s = [] ∨ IsNumericLiteral (trim s) := by
  unfold isNaNString IsNumericLiteral
  simp only [Bool.not_eq_false', Bool.or_eq_true, List.isEmpty_iff]
  rw [isStrDecimalLiteral_iff, isNonDecimalIntegerLiteral_iff]
  constructor
  · rintro ((h | h | h) | h)
    · exact Or.inl h
    · exact Or.inr (Or.inl h)
    · exact Or.inr (Or.inr (Or.inl h))
    · exact Or.inr (Or.inr (Or.inr h))
  · rintro (h | h | h | h)
    · exact Or.inl (Or.inl h)
    · exact Or.inl (Or.inr (Or.inl h))
    · exact Or.inl (Or.inr (Or.inr h))
    · exact Or.inr h

/-- C17 (amended): for a non-empty unquoted raw value, lines 38-43 store a Number exactly when
the value, trimmed, is empty or a numeric literal as `Number()` reads it: an optionally signed
`Infinity`, an optionally signed decimal literal (digits, optionally a point and digits, at
least one digit in all) with an optional exponent part, or an integer literal with the prefix
`0x`, `0o` or `0b`.  The Number stored is `parseFloat(value)`; any other value is stored
unchanged as a String.  Every decimal literal with an optional sign and no exponent part is
stored as the binary64 value nearest to the numeral (an infinity when it overflows); and
among the values written with digits, signs and points alone, these are the only ones stored
as a Number. -/
theorem coerceValue_unquoted (value : Str) (hne : value ≠ [])
    (hq1 : ¬ (startsWith value ['"'] = true ∧ endsWith value ['"'] = true))
    (hq2 : ¬ (startsWith value ['\''] = true ∧ endsWith value ['\''] = true)) :
    ((∃ n, coerceValue value = .num n) ↔
        (trim value = [] ∨ IsNumericLiteral (trim value))) ∧
      ((trim value = [] ∨ IsNumericLiteral (trim value)) →
        coerceValue value = .num (parseFloat value)) ∧
      (¬ (trim value = [] ∨ IsNumericLiteral (trim value)) →
        coerceValue value = .str value) ∧
      (∀ (sg : Option Bool) (ip : Str) (fp : Option Str), IsDecimalLiteral ip fp →
        value = signText sg ++ numeral ip fp →
          coerceValue value = .num (toDouble (signed (signNeg sg) (numeralValue ip fp)))) ∧
      ((∀ c ∈ value, isDigit c = true ∨ c = '+' ∨ c = '-' ∨ c = '.') →
        (∃ n, coerceValue value = .num n) →
          ∃ (sg : Option Bool) (ip : Str) (fp : Option Str),
            IsDecimalLiteral ip fp ∧ value = signText sg ++ numeral ip fp) := by
  have hq : ¬ ((startsWith value ['"'] && endsWith value ['"'] ||
      startsWith value ['\''] && endsWith value ['\'']) = true) := by
    simp only [Bool.or_eq_true, Bool.and_eq_true]
    rintro (h | h)
    · exact hq1 h
    · exact hq2 h
  have hemp : value.isEmpty = false := by
    cases value with
    | nil => exact absurd rfl hne
    | cons a t => rfl
  have hnum : isNaNString value = false → coerceValue value = .num (parseFloat value) := by
    intro h
    unfold coerceValue
    rw [if_neg hq, if_pos (by simp [h, hemp])]
  have hstr : isNaNString value = true → coerceValue value = .str value := by
    intro h
    unfold coerceValue
    rw [if_neg hq, if_neg (by simp [h])]
  have hiff : (∃ n, coerceValue value = .num n) → isNaNString value = false := by
    rintro ⟨n, hn⟩
    cases hnan : isNaNString value with
    | false => rfl
    | true => rw [hstr hnan] at hn; exact JSValue.noConfusion hn
  have hlit := isNaNString_eq_false_iff value
  refine ⟨⟨fun h => hlit.mp (hiff h), fun h => ⟨_, hnum (hlit.mpr h)⟩⟩,
    fun h => hnum (hlit.mpr h), ?_, ?_, ?_⟩
  · intro h
    cases hnan : isNaNString value with
    | false => exact absurd (hlit.mp hnan) h
    | true => exact hstr hnan
  · intro sg ip fp hN hv
    obtain ⟨h1, h2, h3⟩ := signed_decimalLiteral_facts sg hN
    have hnan : isNaNString value = false := by
      unfold isNaNString
      rw [hv, h1]
      simp [h3]
    rw [hnum hnan, hv, h2]
  · intro halpha hn
    have hnan := hiff hn
    unfold isNaNString at hnan
    rw [trim_eq_self_of_decimalChars halpha] at hnan
    simp only [hemp, isNonDecimalIntegerLiteral_of_decimalChars halpha, Bool.false_or,
      Bool.or_false, Bool.not_eq_false_eq_eq_true] at hnan
    exact decimalLiteral_of_isStrDecimalLiteral halpha hnan

theorem coerceValue_unquoted_witness :
    signText (some true) ++ numeral "24".toList (some "50".toList) = "-24.50".toList ∧
    coerceValue "-24.50".toList = .num (.fin (-(49 / 2))) ∧
    (trim "1e3".toList = [] ∨ IsNumericLiteral (trim "1e3".toList)) ∧
    ∃ (sg : Option Bool) (ip : Str) (fp : Option Str),
      IsDecimalLiteral ip fp ∧ "+.5".toList = signText sg ++ numeral ip fp :=
  ⟨by decide,
   ((coerceValue_unquoted "-24.50".toList (by decide) (by decide) (by decide)).2.2.2.1
     (some true) "24".toList (some "50".toList) (by decide) (by decide)).trans (by decide!),
   (coerceValue_unquoted "1e3".toList (by decide) (by decide) (by decide)).1.mp
     ⟨.fin 1000, by decide!⟩,
   (coerceValue_unquoted "+.5".toList (by decide) (by decide) (by decide)).2.2.2.2
     (by decide) ⟨.fin (1 / 2), by decide!⟩⟩

/-- C17 as stated fails: `1e3`, `0x10` and `Infinity` are not decimal numerals of the form
sign, digits, optional fraction, yet `Number` accepts them and a Number is stored: `1000` for
`1e3`, `0` for `0x10` (what `parseFloat` reads of it), `Infinity` for `Infinity`.  And the
number stored for a numeral is not always its value: for the numeral made of a one and 309
zeros it is `Infinity`. -/
theorem coerceValue_exponent_hex_infinity :
    coerceValue "1e3".toList = .num (.fin 1000) ∧
    coerceValue "0x10".toList = .num (.fin 0) ∧
    coerceValue "Infinity".toList = .num (.inf false) ∧
    (∀ (sg : Option Bool) (ip : Str) (fp : Option Str), IsDecimalLiteral ip fp →
      "1e3".toList ≠ signText sg ++ numeral ip fp ∧
      "0x10".toList ≠ signText sg ++ numeral ip fp ∧
      "Infinity".toList ≠ signText sg ++ numeral ip fp) ∧
    IsNumeral ('1' :: List.replicate 309 '0') none ∧
    coerceValue (numeral ('1' :: List.replicate 309 '0') none) = .num (.inf false) := by
  refine ⟨by decide!, by decide!, by decide!, ?_, by decide!, by decide!⟩
  intro sg ip fp hN
  refine ⟨?_, ?_, ?_⟩
  · intro h
    have := mem_signed_decimalLiteral sg hN (c := 'e') (by rw [← h]; decide)
    revert this; decide
  · intro h
    have := mem_signed_decimalLiteral sg hN (c := 'x') (by rw [← h]; decide)
    revert this; decide
  · intro h
    have := mem_signed_decimalLiteral sg hN (c := 'I') (by rw [← h]; decide)
    revert this; decide

/-! ## The numeric tail of the primary strategy -/

theorem matchNumberHere_shape {s g : Str} (h : matchNumberHere s = some g) :
    ∃ ip fp ws, IsNumeral ip fp ∧ g = numeral ip fp ∧ s = g ++ ws ∧
      ∀ c ∈ ws, isWhiteSpace c = true := by
  unfold matchNumberHere at h
  simp only at h
  split_ifs at h with h0
  have hip : AllDigits (s.takeWhile isDigit) := fun c hc => List.mem_takeWhile_imp hc
  split at h
  · rename_i r heq
    split_ifs at h with hws
    simp only [Option.some.injEq] at h
    refine ⟨s.takeWhile isDigit, some (r.takeWhile isDigit), r.dropWhile isDigit,
      ⟨h0, hip, ?_⟩, h.symm, ?_, fun c hc => List.all_eq_true.mp hws c hc⟩
    · intro f hf
      simp only [Option.mem_def, Option.some.injEq] at hf
      subst hf
      exact fun c hc => List.mem_takeWhile_imp hc
    · rw [← h]
      conv_lhs => rw [← List.takeWhile_append_dropWhile isDigit s, heq,
        ← List.takeWhile_append_dropWhile isDigit r]
      simp
  · split_ifs at h with hws
    simp only [Option.some.injEq] at h
    refine ⟨s.takeWhile isDigit, none, s.dropWhile isDigit, ⟨h0, hip, ?_⟩, h.symm, ?_,
      fun c hc => List.all_eq_true.mp hws c hc⟩
    · intro f hf
      exact Option.noConfusion hf
    · rw [← h, List.takeWhile_append_dropWhile]

theorem numeral_ne_nil {ip : Str} {fp : Option Str} (h : IsNumeral ip fp) :
    numeral ip fp ≠ [] := by
  obtain ⟨c, t, ht, _⟩ := numeral_head h
  rw [ht]; simp

theorem isNumeral_of_matchNumberHere (pre : Str) {g : Str} {ip : Str} {fp : Option Str}
    (hN : IsNumeral ip fp) (h : matchNumberHere (pre ++ numeral ip fp) = some g) :
    ∃ ip' fp', IsNumeral ip' fp' ∧ pre ++ numeral ip fp = numeral ip' fp' := by
  obtain ⟨ip', fp', ws, hN', hg, hs, hws⟩ := matchNumberHere_shape h
  have hws_nil : ws = [] := by
    by_contra hne
    have hlast : (pre ++ numeral ip fp).getLast? = ws.getLast? := by
      rw [hs, List.getLast?_append_of_ne_nil _ hne]
    rw [List.getLast?_append_of_ne_nil _ (numeral_ne_nil hN)] at hlast
    obtain ⟨c, hc⟩ : ∃ c, ws.getLast? = some c := by
      cases hl : ws.getLast? with
      | none => exact absurd (List.getLast?_eq_none_iff.mp hl) hne
      | some c => exact ⟨c, rfl⟩
    have h1 := numeral_getLast hN c (by rw [hlast]; exact hc)
    have h2 := hws c (List.mem_of_getLast?_eq_some hc)
    rw [h1] at h2
    exact Bool.noConfusion h2
  refine ⟨ip', fp', hN', ?_⟩
  rw [hs, hws_nil, List.append_nil, hg]

theorem matchNumber_longest_numeral (pre : Str) {ip : Str} {fp : Option Str}
    (hN : IsNumeral ip fp)
    (hlong : ∀ pre' ip' fp', IsNumeral ip' fp' →
      pre ++ numeral ip fp = pre' ++ numeral ip' fp' → pre.length ≤ pre'.length) :
    matchNumber (pre ++ numeral ip fp) = some (numeral ip fp, numeral ip fp) := by
  induction pre with
  | nil =>
    obtain ⟨c, t, ht, _⟩ := numeral_head hN
    have := matchNumberHere_numeral hN
    rw [List.nil_append]
    rw [ht] at this ⊢
    simp [matchNumber, this]
  | cons x xs ih =>
    have hnone : matchNumberHere (x :: (xs ++ numeral ip fp)) = none := by
      cases hm : matchNumberHere (x :: (xs ++ numeral ip fp)) with
      | none => rfl
      | some g =>
        obtain ⟨ip', fp', hN', he⟩ :=
          isNumeral_of_matchNumberHere (x :: xs) hN (by simpa using hm)
        have := hlong [] ip' fp' hN' (by simpa using he)
        simp at this
    show matchNumber (x :: (xs ++ numeral ip fp)) = _
    rw [matchNumber, hnone]
    apply ih
    intro pre' ip' fp' hN' he
    have := hlong (x :: pre') ip' fp' hN' (by simp [he])
    simpa using this

theorem splitCharge_of_matchNumber_numeral (pre : Str) {ip : Str} {fp : Option Str}
    (hN : IsNumeral ip fp)
    (hm : matchNumber (pre ++ numeral ip fp) = some (numeral ip fp, numeral ip fp)) :
    splitCharge (pre ++ numeral ip fp) =
      some (segmentBefore pre, toDouble (numeralValue ip fp)) := by
  unfold splitCharge segmentBefore
  rw [hm]
  simp only [lastIndexOf_append_self pre (numeral_ne_nil hN), Option.getD_some,
    List.take_left', parseFloat_numeral hN]

theorem exists_longest_numeral (line : Str)
    (h : ∃ pre ip fp, IsNumeral ip fp ∧ line = pre ++ numeral ip fp) :
    ∃ pre ip fp, IsNumeral ip fp ∧ line = pre ++ numeral ip fp ∧
      ∀ pre' ip' fp', IsNumeral ip' fp' → line = pre' ++ numeral ip' fp' →
        pre.length ≤ pre'.length := by
  induction line with
  | nil =>
    obtain ⟨pre, ip, fp, hN, he⟩ := h
    have : numeral ip fp = [] := (List.append_eq_nil.mp he.symm).2
    exact absurd this (numeral_ne_nil hN)
  | cons x rest ih =>
    by_cases hw : ∃ ip fp, IsNumeral ip fp ∧ x :: rest = numeral ip fp
    · obtain ⟨ip, fp, hN, he⟩ := hw
      exact ⟨[], ip, fp, hN, by simpa using he, fun _ _ _ _ _ => Nat.zero_le _⟩
    · obtain ⟨pre, ip, fp, hN, he⟩ := h
      cases pre with
      | nil => exact absurd ⟨ip, fp, hN, by simpa using he⟩ hw
      | cons y pre0 =>
        simp only [List.cons_append, List.cons.injEq] at he
        obtain ⟨p1, ip1, fp1, hN1, he1, hl1⟩ := ih ⟨pre0, ip, fp, hN, he.2⟩
        refine ⟨x :: p1, ip1, fp1, hN1, by simp [he1], ?_⟩
        intro pre' ip' fp' hN' he'
        cases pre' with
        | nil => exact absurd ⟨ip', fp', hN', by simpa using he'⟩ hw
        | cons z p' =>
          simp only [List.cons_append, List.cons.injEq] at he'
          have := hl1 p' ip' fp' hN' he'.2
          simpa using this

/-- C18 (amended): for every line that ends in an unsigned decimal numeral (digits, then
optionally a point and digits), the tail matched by `/(\d+\.?\d*)\s*$/` is the longest suffix
of the line that is such a numeral, so it starts with a digit; `predictedCharge` is the Number
read from it, the binary64 value nearest to the numeral (`Infinity` when it overflows), and
the key-value text is what stands before it, trimmed, one trailing comma dropped and trimmed
again. -/
theorem splitCharge_trailing_numeral (line : Str)
    (h : ∃ pre ip fp, IsNumeral ip fp ∧ line = pre ++ numeral ip fp) :
    ∃ pre ip fp, IsNumeral ip fp ∧ line = pre ++ numeral ip fp ∧
      (∀ pre' ip' fp', IsNumeral ip' fp' → line = pre' ++ numeral ip' fp' →
        pre.length ≤ pre'.length) ∧
      matchNumber line = some (numeral ip fp, numeral ip fp) ∧
      splitCharge line = some (segmentBefore pre, toDouble (numeralValue ip fp)) := by
  obtain ⟨pre, ip, fp, hN, he, hlong⟩ := exists_longest_numeral line h
  have hm : matchNumber (pre ++ numeral ip fp) = some (numeral ip fp, numeral ip fp) :=
    matchNumber_longest_numeral pre hN (fun pre' ip' fp' hN' he' =>
      hlong pre' ip' fp' hN' (he.trans he'))
  refine ⟨pre, ip, fp, hN, he, hlong, ?_, ?_⟩
  · rw [he]; exact hm
  · rw [he]; exact splitCharge_of_matchNumber_numeral pre hN hm

theorem splitCharge_trailing_numeral_witness :
    ∃ pre ip fp, IsNumeral ip fp ∧
      "\x7b'age': 25, 'sex': 'f', 'bmi': 24.0\x7d, 6170.00".toList = pre ++ numeral ip fp ∧
      (∀ pre' ip' fp', IsNumeral ip' fp' →
        "\x7b'age': 25, 'sex': 'f', 'bmi': 24.0\x7d, 6170.00".toList = pre' ++ numeral ip' fp' →
          pre.length ≤ pre'.length) ∧
      matchNumber "\x7b'age': 25, 'sex': 'f', 'bmi': 24.0\x7d, 6170.00".toList =
        some (numeral ip fp, numeral ip fp) ∧
      splitCharge "\x7b'age': 25, 'sex': 'f', 'bmi': 24.0\x7d, 6170.00".toList =
        some (segmentBefore pre, toDouble (numeralValue ip fp)) :=
  splitCharge_trailing_numeral _
    ⟨"\x7b'age': 25, 'sex': 'f', 'bmi': 24.0\x7d, ".toList, "6170".toList, some "00".toList,
      by decide, by decide⟩

/-- C18 as stated fails on a line ending in `,.5`: the longest suffix of `x,.5` made of digits
and at most one point is `.5`, but the match needs a leading digit and is `5`; the charge is
`5`, not `0.5`, and the key-value text is `x,.`, not `x`.  And the charge is the Number read
from the tail, not always its value: for a tail made of a one and 309 zeros it is
`Infinity`. -/
theorem splitCharge_leading_point :
    digitsAndPoint ".5".toList = true ∧ digitsAndPoint ",.5".toList = false ∧
    "x,.5".toList = "x,".toList ++ ".5".toList ∧
    matchNumber "x,.5".toList = some ("5".toList, "5".toList) ∧
    splitCharge "x,.5".toList = some ("x,.".toList, .fin 5) ∧
    parseFloat ".5".toList = .fin (1 / 2) ∧ segmentBefore "x,".toList = "x".toList ∧
    splitCharge ("x,".toList ++ '1' :: List.replicate 309 '0') =
      some ("x".toList, .inf false) := by
  decide!

/-! ## The query built by `getPredictionsByCondition` -/

/-- C19: the SQL text passed to `executeQuery` has as many `?` as the parameter list has
elements; the parameters are the truthy ones among `region`, `smoker`, `age`, `min_age`,
`max_age`, in that order; the text contains ` WHERE ` exactly when one of the five is truthy;
and it ends with ` ORDER BY id ASC`. -/
theorem getPredictionsByCondition_query {α : Type} (isTruthy : α → Bool) (c : Condition α) :
    (getPredictionsByCondition isTruthy c).1.count '?' =
        (getPredictionsByCondition isTruthy c).2.length ∧
      (getPredictionsByCondition isTruthy c).2 =
        [c.region, c.smoker, c.age, c.min_age, c.max_age].filter isTruthy ∧
      (includes (getPredictionsByCondition isTruthy c).1 " WHERE ".toList = true ↔
        (isTruthy c.region = true ∨ isTruthy c.smoker = true ∨ isTruthy c.age = true ∨
          isTruthy c.min_age = true ∨ isTruthy c.max_age = true)) ∧
      endsWith (getPredictionsByCondition isTruthy c).1 " ORDER BY id ASC".toList = true := by
  cases h1 : isTruthy c.region <;> cases h2 : isTruthy c.smoker <;>
    cases h3 : isTruthy c.age <;> cases h4 : isTruthy c.min_age <;>
    cases h5 : isTruthy c.max_age <;>
    simp only [getPredictionsByCondition, pushCondition, h1, h2, h3, h4, h5, if_true,
      Bool.false_eq_true, if_false, List.nil_append, List.cons_append, List.length_cons,
      List.length_nil, List.filter_cons, List.filter_nil, joinAnd, List.append_assoc,
      gt_iff_lt, Nat.lt_irrefl, Nat.zero_lt_succ, Nat.zero_add, Nat.reduceAdd, Nat.reduceLT,
      true_or, or_true, or_self, iff_true, iff_false, reduceCtorEq, not_false_eq_true,
      and_true, true_and] <;>
    decide

theorem getPredictionsByCondition_query_witness :
    getPredictionsByCondition truthy
        { region := some (.str "southeast".toList), smoker := none, age := none,
          min_age := some (.num (.fin 30)), max_age := none } =
      ("SELECT * FROM ml_predictions WHERE region = ? AND age >= ? ORDER BY id ASC".toList,
        [some (.str "southeast".toList), some (.num (.fin 30))]) ∧
    (getPredictionsByCondition truthy
        { region := some (.str "southeast".toList), smoker := none, age := none,
          min_age := some (.num (.fin 30)), max_age := none }).1.count '?' =
      (getPredictionsByCondition truthy
        { region := some (.str "southeast".toList), smoker := none, age := none,
          min_age := some (.num (.fin 30)), max_age := none }).2.length :=
  ⟨by decide, (getPredictionsByCondition_query truthy _).1⟩

end ImportPredictions
